import Mathlib

/-!
Shallow embedding of the quarterly time-series extension engine of the
InsightHub dashboard (`lib/time.ts`: `parseQuarter`, `formatQuarter`,
`nextQuarter`, `averageRatio`, `projectNextValue`, `extendSeriesToYear`)
and of the calendar-year aggregation performed by the `Forecasting`
component.

JavaScript numbers are modelled exactly: a finite number is a rational,
and the non-finite values NaN, Infinity and -Infinity are explicit
constructors.  Floating-point rounding is not modelled; arithmetic on
finite values is exact rational arithmetic.
-/

namespace InsightHub

inductive JNum where
  | num : ℚ → JNum
  | nan : JNum
  | inf : JNum
  | ninf : JNum
deriving DecidableEq

instance : Inhabited JNum := ⟨.num 0⟩

/-- `Number.isFinite`. -/
def JNum.isFinite : JNum → Bool
  | .num _ => true
  | _ => false

/-- The rational carried by a finite JavaScript number (0 otherwise). -/
def JNum.toRat : JNum → ℚ
  | .num q => q
  | _ => 0

/-- JavaScript truthiness of a number: `0` and `NaN` are falsy. -/
def jsTruthy : JNum → Bool
  | .num q => q ≠ 0
  | .nan => false
  | _ => true

/-- JavaScript `+` on numbers. -/
def jadd : JNum → JNum → JNum
  | .num a, .num b => .num (a + b)
  | .nan, _ => .nan
  | _, .nan => .nan
  | .inf, .ninf => .nan
  | .ninf, .inf => .nan
  | .inf, _ => .inf
  | _, .inf => .inf
  | .ninf, _ => .ninf
  | _, .ninf => .ninf

/-- JavaScript `-` on numbers. -/
def jsub : JNum → JNum → JNum
  | .num a, .num b => .num (a - b)
  | .nan, _ => .nan
  | _, .nan => .nan
  | .inf, .inf => .nan
  | .ninf, .ninf => .nan
  | .inf, _ => .inf
  | .ninf, _ => .ninf
  | _, .inf => .ninf
  | _, .ninf => .inf

/-- JavaScript `Math.max(0, x)`. -/
def jmax0 : JNum → JNum
  | .num q => .num (max 0 q)
  | .nan => .nan
  | .inf => .inf
  | .ninf => .num 0

/-- JavaScript `Math.round(x * 1000) / 1000` (round half towards plus
infinity, then divide back). -/
def jsRound3 : JNum → JNum
  | .num q => .num ((⌊q * 1000 + 1 / 2⌋ : ℤ) / (1000 : ℚ))
  | .nan => .nan
  | .inf => .inf
  | .ninf => .ninf

/-! Character classes of the regular expressions in the source.
JavaScript `\d` is exactly `[0-9]`, `\s` is whitespace, `\w` (for the
word boundary `\b`) is `[A-Za-z0-9_]`. -/

def isDigitC (c : Char) : Bool := '0' ≤ c ∧ c ≤ '9'

def digitVal (c : Char) : ℕ := c.toNat - 48

def isWsC (c : Char) : Bool :=
  c = ' ' ∨ c = '\t' ∨ c = '\n' ∨ c = '\r' ∨ c = '\x0b' ∨ c = '\x0c'

/-- The separator class `[-\/\s]` appearing between year and quarter. -/
def isSepC (c : Char) : Bool := isWsC c ∨ c = '-' ∨ c = '/'

def isWordC (c : Char) : Bool :=
  ('a' ≤ c ∧ c ≤ 'z') ∨ ('A' ≤ c ∧ c ≤ 'Z') ∨ isDigitC c ∨ c = '_'

/-- Reads `\d{4}` at the head of the list: four decimal digits
(further characters may follow), returning their value. -/
def take4digits : List Char → Option ℕ
  | a :: b :: c :: d :: _ =>
    if isDigitC a ∧ isDigitC b ∧ isDigitC c ∧ isDigitC d then
      some (1000 * digitVal a + 100 * digitVal b + 10 * digitVal c + digitVal d)
    else none
  | _ => none

/-- First alternative of `QUARTER_REGEX`,
`Q\s*(\d)\s*(?:[-\/\s]*)\s*(\d{4})` (case-insensitive), tried at the
head of the list.  Returns the captured quarter digit and year. -/
def matchA (l : List Char) : Option (ℕ × ℕ) :=
  match l with
  | [] => none
  | c :: rest =>
    if c = 'Q' ∨ c = 'q' then
      match rest.dropWhile isWsC with
      | [] => none
      | d :: rest2 =>
        if isDigitC d then
          match take4digits (rest2.dropWhile isSepC) with
          | some y => some (digitVal d, y)
          | none => none
        else none
    else none

/-- Second alternative of `QUARTER_REGEX`,
`\b(\d{4})\s*(?:[-\/\s]*)Q\s*(\d)` (case-insensitive), tried at the
head of the list; `prev` is the character before the current position
(`none` at the start of the string), used for the word boundary. -/
def matchB (prev : Option Char) (l : List Char) : Option (ℕ × ℕ) :=
  if (match prev with | some c => isWordC c | none => false) then none
  else
    match take4digits l with
    | none => none
    | some y =>
      match (l.drop 4).dropWhile isSepC with
      | [] => none
      | c :: rest2 =>
        if c = 'Q' ∨ c = 'q' then
          match rest2.dropWhile isWsC with
          | [] => none
          | d :: _ => if isDigitC d then some (digitVal d, y) else none
        else none

/-- `QUARTER_REGEX.exec`: scan left to right, at each position trying the
first alternative and then the second, returning the first match's
captured quarter digit and year.  (Both alternatives need at least one
character, so the scan stops at the empty suffix.) -/
def scanQuarter (prev : Option Char) : List Char → Option (ℕ × ℕ)
  | [] => none
  | c :: rest =>
    match matchA (c :: rest) with
    | some r => some r
    | none =>
      match matchB prev (c :: rest) with
      | some r => some r
      | none => scanQuarter (some c) rest

/-- `String.prototype.trim`. -/
def trimChars (l : List Char) : List Char :=
  ((l.dropWhile isWsC).reverse.dropWhile isWsC).reverse

structure Quarter where
  year : ℤ
  quarter : ℤ
  key : ℤ
deriving DecidableEq

instance : Inhabited Quarter := ⟨⟨0, 0, 0⟩⟩

/-- `parseQuarter(label)`. -/
def parseQuarter (label : String) : Option Quarter :=
  if label = "" then none
  else
    match scanQuarter none (trimChars label.data) with
    | none => none
    | some (q, y) =>
      if y = 0 ∨ q = 0 ∨ q < 1 ∨ q > 4 then none
      else some ⟨(y : ℤ), (q : ℤ), (y : ℤ) * 4 + ((q : ℤ) - 1)⟩

/-! Decimal rendering of integers, as JavaScript template literals
produce (`Q${quarter} ${year}`).  The recursion is made structural with
an explicit fuel argument equal to the number being rendered. -/

def digitChar (n : ℕ) : Char := Char.ofNat (48 + n)

def natDigitsGo : ℕ → ℕ → List Char
  | 0, n => [digitChar n]
  | fuel + 1, n =>
    if n < 10 then [digitChar n]
    else natDigitsGo fuel (n / 10) ++ [digitChar (n % 10)]

def natDigits (n : ℕ) : List Char := natDigitsGo n n

def intToChars (i : ℤ) : List Char :=
  if i < 0 then '-' :: natDigits i.natAbs else natDigits i.toNat

/-- `formatQuarter(year, quarter)`, the canonical form `"Q<q> <year>"`. -/
def formatQuarter (year quarter : ℤ) : String :=
  ⟨'Q' :: intToChars quarter ++ ' ' :: intToChars year⟩

/-- `nextQuarter(input)`. -/
def nextQuarter (input : Quarter) : Quarter :=
  let nextQ := if input.quarter = 4 then 1 else input.quarter + 1
  let nextYear := if input.quarter = 4 then input.year + 1 else input.year
  ⟨nextYear, nextQ, nextYear * 4 + (nextQ - 1)⟩

/-! `averageRatio` and `projectNextValue`. -/

/-- The list of valid ratios collected by the loop of `averageRatio`:
pairs are consumed positionally up to the shorter length, and a pair
contributes `num / den` exactly when both are finite and the
denominator is non-zero. -/
def ratioList : List JNum → List JNum → List ℚ
  | n :: ns, d :: ds =>
    (match n, d with
     | .num a, .num b => if b = 0 then ratioList ns ds else (a / b) :: ratioList ns ds
     | _, _ => ratioList ns ds)
  | _, _ => []

/-- `averageRatio(numerators, denominators)`. -/
def averageRatio (numerators denominators : List JNum) : Option ℚ :=
  let ratios := ratioList numerators denominators
  if ratios = [] then none
  else some (ratios.foldl (· + ·) 0 / (ratios.length : ℚ))

/-- The trailing window used by `projectNextValue`: the finite values of
the series, then the last at most four of them. -/
def trailingWindow (series : List JNum) : List ℚ :=
  let values := series.filterMap (fun v => match v with | .num q => some q | _ => none)
  values.drop (values.length - 4)

/-- `projectNextValue(series)`. -/
def projectNextValue (series : List JNum) : ℚ :=
  let values := series.filterMap (fun v => match v with | .num q => some q | _ => none)
  if values = [] then 0
  else
    let tail := values.drop (values.length - 4)
    if tail.length < 2 then (tail.getLast?).getD 0
    else
      let diffs := List.zipWith (fun a b => b - a) tail (tail.drop 1)
      let slope := diffs.foldl (· + ·) 0 / (diffs.length : ℚ)
      max 0 ((tail.getLast?).getD 0 + slope)

/-! The series and forecast shapes. -/

structure ForecastSource where
  labels : List String
  values : List JNum
  ci : Option (List JNum × List JNum)
deriving DecidableEq

structure SeriesInput where
  labels : List String
  estimate : List JNum
  demand : List JNum
  supply : List JNum
  ci : Option (List JNum × List JNum)
  forecast : Option ForecastSource
deriving DecidableEq

structure ExtOpts where
  mlForecast : Option ForecastSource
  targetYear : Option ℚ
  maxFutureQuarters : Option JNum
deriving DecidableEq

structure ExtendedSeries where
  labels : List String
  estimate : List JNum
  demand : List JNum
  supply : List JNum
  ci : Option (List JNum × List JNum)
deriving DecidableEq

/-- Looking an entry up in one of the label-keyed maps.  `Map.set`
overwrites, so the value of a key is the one of its last insertion. -/
def mapGet {α : Type} (m : List (String × α)) (k : String) : Option α :=
  (m.reverse.find? (fun e => e.1 = k)).map (·.2)

/-- `takeForecast(source)`: the label-to-value entries inserted, in
order.  Entries are consumed positionally up to the shorter length and
kept when the label is truthy (non-empty) and the value finite. -/
def takeForecast (source : Option ForecastSource) : List (String × ℚ) :=
  match source with
  | none => []
  | some s =>
    if s.labels = [] ∨ s.values = [] then []
    else
      (s.labels.zip s.values).filterMap (fun e =>
        match e.2 with
        | .num q => if e.1 = "" then none else some (e.1, q)
        | _ => none)

/-- `ciMap(source)`: label-to-band entries, consumed positionally up to
the shortest of the three arrays, kept when the label is truthy and
both bounds are finite. -/
def ciMap (source : Option ForecastSource) : List (String × (ℚ × ℚ)) :=
  match source with
  | none => []
  | some s =>
    match s.ci with
    | none => []
    | some (lo, up) =>
      (s.labels.zip (lo.zip up)).filterMap (fun e =>
        match e.2.1, e.2.2 with
        | .num a, .num b => if e.1 = "" then none else some (e.1, (a, b))
        | _, _ => none)

/-- `maxFuture`: `typeof opts.maxFutureQuarters === 'number' &&
opts.maxFutureQuarters > 0 ? Math.max(0, Math.floor(...)) : Infinity`.
`none` is the unbounded case (`Infinity`, also reached by a literal
`Infinity` argument, whose floor is again `Infinity`). -/
def maxFutureOf (m : Option JNum) : Option ℕ :=
  match m with
  | some (.num q) => if 0 < q then some (Int.toNat ⌊q⌋) else none
  | _ => none

/-- `Math.ceil(maxFuture / 4)` for a natural `maxFuture`. -/
def ceilDiv4 (m : ℕ) : ℕ := (m + 3) / 4

/-- `effectiveTargetYear = min(targetYear, maxFutureYears)`, where
`maxFutureYears` is `lastQuarter.year + Math.ceil(maxFuture / 4)` when
`maxFuture` is finite and `targetYear` otherwise. -/
def effTYOf (anchor : Quarter) (targetYear : ℚ) (mf : Option ℕ) : ℚ :=
  min targetYear
    (match mf with
     | some m => (anchor.year : ℚ) + (ceilDiv4 m : ℚ)
     | none => targetYear)

/-- `added >= maxFuture` (never true for the unbounded case). -/
def stopFlag (mf : Option ℕ) (added : ℕ) : Bool :=
  match mf with
  | some m => m ≤ added
  | none => false

/-- `lastSpread`. -/
def lastSpreadOf (base : SeriesInput) : JNum :=
  match base.ci with
  | some (lo, up) =>
    if lo.length ≠ 0 ∧ up.length ≠ 0 then
      jmax0 (jsub ((up.getLast?).getD (.num 0)) ((base.demand.getLast?).getD (.num 0)))
    else .num 0
  | none => .num 0

/-- The per-call context of the extension loop: the four lookup maps,
the two ratios and the seed spread, all computed before the loop. -/
structure ExtCtx where
  fM : List (String × ℚ)
  mM : List (String × ℚ)
  fC : List (String × (ℚ × ℚ))
  mC : List (String × (ℚ × ℚ))
  rE : Option ℚ
  rS : Option ℚ
  lsp : JNum
deriving DecidableEq

def ctxOf (base : SeriesInput) (opts : ExtOpts) : ExtCtx :=
  ⟨takeForecast base.forecast, takeForecast opts.mlForecast,
   ciMap base.forecast, ciMap opts.mlForecast,
   averageRatio base.estimate base.demand,
   averageRatio base.supply base.demand,
   lastSpreadOf base⟩

/-- The canonical label pushed for a new quarter. -/
def qLabel (p : Quarter) : String := formatQuarter p.year p.quarter

/-- `nextDemand`: the explicit forecast value for the label when the map
holds one (map values are finite by construction), else the secondary
model value, else the trend projection of the demand so far. -/
def resolveDemand (fM mM : List (String × ℚ)) (lab : String) (hist : List JNum) : ℚ :=
  match mapGet fM lab with
  | some v => v
  | none =>
    match mapGet mM lab with
    | some v => v
    | none => projectNextValue hist

/-- `ratio && Number.isFinite(nextDemand) ? Math.max(0, nextDemand * ratio)
: projectNextValue(hist)`.  The ratio, being a mean of finite ratios, is
truthy exactly when it is defined and non-zero; `nextDemand` is always
finite in the exact model. -/
def deriveVal (r : Option ℚ) (nd : ℚ) (hist : List JNum) : ℚ :=
  match r with
  | some ρ => if ρ = 0 then projectNextValue hist else max 0 (nd * ρ)
  | none => projectNextValue hist

/-- The confidence band pushed for a new quarter: the forecast CI entry
if present, else the ML CI entry, else a band around `nextDemand` of
half-width `lastSpread` when truthy and `8%` of `|nextDemand|`
otherwise, with the lower bound clamped by `Math.max(0, ...)`.  (The
source's final `else` pushing `0/0` guards on `Number.isFinite(nextDemand)`,
which always holds in the exact model.) -/
def bandStep (fC mC : List (String × (ℚ × ℚ))) (lsp : JNum) (lab : String) (nd : ℚ) :
    JNum × JNum :=
  match mapGet fC lab with
  | some en => (.num en.1, .num en.2)
  | none =>
    match mapGet mC lab with
    | some en => (.num en.1, .num en.2)
    | none =>
      let spread := if jsTruthy lsp then lsp else .num (|nd| * (8 / 100))
      (jmax0 (jsub (.num nd) spread), jadd (.num nd) spread)

/-- One iteration of the extension loop: push the label, the resolved
demand, the derived estimate and supply, and (when a band is tracked)
the band entry. -/
def pushQuarter (ctx : ExtCtx) (st : ExtendedSeries) (p : Quarter) : ExtendedSeries :=
  let label := qLabel p
  let nd : ℚ := resolveDemand ctx.fM ctx.mM label st.demand
  let est : ℚ := deriveVal ctx.rE nd st.estimate
  let sup : ℚ := deriveVal ctx.rS nd st.supply
  { labels := st.labels ++ [label]
    estimate := st.estimate ++ [.num est]
    demand := st.demand ++ [.num nd]
    supply := st.supply ++ [.num sup]
    ci :=
      match st.ci with
      | none => none
      | some (lo, up) =>
        let b := bandStep ctx.fC ctx.mC ctx.lsp label nd
        some (lo ++ [b.1], up ++ [b.2]) }

/-- The `while` loop of `extendSeriesToYear`.  The loop advances the
pointer one quarter per iteration while the pointer's year does not
exceed `e` and the added count has not reached the bound; the fuel
argument is an upper bound on the remaining iterations (the caller
passes `measureQ e p`, which is exact for pointers with a quarter in
`[1,4]`, so exhaustion and the year guard coincide). -/
def extendLoopGo (e : ℚ) (mf : Option ℕ) (ctx : ExtCtx) :
    ℕ → Quarter → ℕ → ExtendedSeries → ExtendedSeries
  | 0, _, _, st => st
  | fuel + 1, p, added, st =>
    if (p.year : ℚ) ≤ e then
      if stopFlag mf added then st
      else
        let p' := nextQuarter p
        if e < (p'.year : ℚ) then st
        else extendLoopGo e mf ctx fuel p' (added + 1) (pushQuarter ctx st p')
    else st

/-- Remaining-iteration bound for a loop pointer: the number of quarters
strictly between the pointer and the first quarter of year `⌊e⌋ + 1`. -/
def measureQ (e : ℚ) (p : Quarter) : ℕ :=
  (4 * (⌊e⌋ + 1) - (4 * p.year + p.quarter)).toNat

/-- `extendSeriesToYear(base, opts)`. -/
def extendSeriesToYear (base : SeriesInput) (opts : ExtOpts) : ExtendedSeries :=
  let targetYear : ℚ := opts.targetYear.getD 2035
  let mf := maxFutureOf opts.maxFutureQuarters
  let st0 : ExtendedSeries :=
    ⟨base.labels, base.estimate, base.demand, base.supply, base.ci⟩
  match base.labels.getLast? with
  | none => st0
  | some lastLabel =>
    match parseQuarter lastLabel with
    | none => st0
    | some lastQuarter =>
      let e := effTYOf lastQuarter targetYear mf
      extendLoopGo e mf (ctxOf base opts) (measureQ e lastQuarter) lastQuarter 0 st0

/-- The list of quarters the loop appends, mirroring the guards of
`extendLoopGo` without the state. -/
def appendedList (e : ℚ) (mf : Option ℕ) : ℕ → Quarter → ℕ → List Quarter
  | 0, _, _ => []
  | fuel + 1, p, added =>
    if (p.year : ℚ) ≤ e then
      if stopFlag mf added then []
      else
        let p' := nextQuarter p
        if e < (p'.year : ℚ) then []
        else p' :: appendedList e mf fuel p' (added + 1)
    else []

/-- The quarters appended by `extendSeriesToYear base opts`. -/
def appendedQuarters (base : SeriesInput) (opts : ExtOpts) : List Quarter :=
  match base.labels.getLast? with
  | none => []
  | some lastLabel =>
    match parseQuarter lastLabel with
    | none => []
    | some lastQuarter =>
      let targetYear : ℚ := opts.targetYear.getD 2035
      let mf := maxFutureOf opts.maxFutureQuarters
      let e := effTYOf lastQuarter targetYear mf
      appendedList e mf (measureQ e lastQuarter) lastQuarter 0

/-- The demand values appended for a list of new quarters, each resolved
against the demand history grown so far. -/
def demandExt (fM mM : List (String × ℚ)) : List JNum → List Quarter → List JNum
  | _, [] => []
  | hist, p :: ps =>
    let nd := resolveDemand fM mM (qLabel p) hist
    JNum.num nd :: demandExt fM mM (hist ++ [.num nd]) ps

/-- The estimate values appended for a list of new quarters. -/
def estimateExt (fM mM : List (String × ℚ)) (rE : Option ℚ) :
    List JNum → List JNum → List Quarter → List JNum
  | _, _, [] => []
  | dh, eh, p :: ps =>
    let nd := resolveDemand fM mM (qLabel p) dh
    let v := deriveVal rE nd eh
    JNum.num v :: estimateExt fM mM rE (dh ++ [.num nd]) (eh ++ [.num v]) ps

/-- The band entries appended for a list of new quarters. -/
def bandExt (fM mM : List (String × ℚ)) (fC mC : List (String × (ℚ × ℚ)))
    (lsp : JNum) : List JNum → List Quarter → List (JNum × JNum)
  | _, [] => []
  | dh, p :: ps =>
    let nd := resolveDemand fM mM (qLabel p) dh
    bandStep fC mC lsp (qLabel p) nd :: bandExt fM mM fC mC lsp (dh ++ [.num nd]) ps

/-- Reinterpreting an extended series as the base of a further call (the
output carries no `forecast` sub-object). -/
def seriesToInput (s : ExtendedSeries) : SeriesInput :=
  ⟨s.labels, s.estimate, s.demand, s.supply, s.ci, none⟩

/-! The calendar-year aggregation of the `Forecasting` component
(`mode === "year"`). -/

/-- Reads `\d{4}` at the head of the list, returning the four digit
characters themselves (the captured substring). -/
def take4chars : List Char → Option (List Char)
  | a :: b :: c :: d :: _ =>
    if isDigitC a ∧ isDigitC b ∧ isDigitC c ∧ isDigitC d then some [a, b, c, d]
    else none
  | _ => none

/-- The optional prefix `(?:Q\d+\s+)?` of the year-extraction regex
`/(?:Q\d+\s+)?(\d{4})/` (case-sensitive), tried at the head of the
list, followed by the captured `\d{4}`. -/
def matchYearAt (l : List Char) : Option (List Char) :=
  let withPrefix : Option (List Char) :=
    match l with
    | c :: rest =>
      if c = 'Q' then
        match rest with
        | d :: _ =>
          if isDigitC d then
            match rest.dropWhile isDigitC with
            | w :: _ =>
              if isWsC w then take4chars ((rest.dropWhile isDigitC).dropWhile isWsC)
              else none
            | [] => none
          else none
        | [] => none
      else none
    | [] => none
  match withPrefix with
  | some ds => some ds
  | none => take4chars l

/-- Scanning `/(?:Q\d+\s+)?(\d{4})/.exec(label)` left to right. -/
def scanYear : List Char → Option (List Char)
  | [] => none
  | c :: rest =>
    match matchYearAt (c :: rest) with
    | some ds => some ds
    | none => scanYear rest

/-- `yearOf(label)`: the captured 4-digit year substring, or the label
itself when the regex does not match. -/
def yearOf (label : String) : String :=
  match scanYear label.data with
  | some ds => ⟨ds⟩
  | none => label

/-- Lexicographic comparison of strings by character code, the order of
JavaScript's default `Array.prototype.sort`. -/
def charsLe : List Char → List Char → Bool
  | [], _ => true
  | _ :: _, [] => false
  | a :: as, b :: bs =>
    if a.toNat < b.toNat then true
    else if b.toNat < a.toNat then false
    else charsLe as bs

def strLe (a b : String) : Bool := charsLe a.data b.data

def insertStr (x : String) : List String → List String
  | [] => [x]
  | y :: ys => if strLe x y then x :: y :: ys else y :: insertStr x ys

/-- `Array.from(map.keys()).sort()`: the distinct keys in ascending
lexicographic order (an insertion sort; the keys being distinct, any
correct sort produces the same list). -/
def sortStr : List String → List String
  | [] => []
  | x :: xs => insertStr x (sortStr xs)

/-- The accumulated sum of one year bucket for one value array:
`obj.v += vals[i] ?? 0` over the labels whose `yearOf` is `y`, starting
from `0`. -/
def bucketAdd (labels : List String) (vals : List JNum) (y : String) : JNum :=
  (List.range labels.length).foldl
    (fun acc i =>
      if yearOf (labels.getD i "") = y then jadd acc ((vals.get? i).getD (.num 0))
      else acc)
    (.num 0)

/-- The accumulated band bucket: `obj.l = (obj.l || 0) + (v[i] ?? 0)`
(the accumulator is reset to `0` when falsy before each addition). -/
def bucketBand (labels : List String) (vals : List JNum) (y : String) : JNum :=
  (List.range labels.length).foldl
    (fun acc i =>
      if yearOf (labels.getD i "") = y then
        jadd (if jsTruthy acc then acc else .num 0) ((vals.get? i).getD (.num 0))
      else acc)
    (.num 0)

structure YearAgg where
  labels : List String
  estimate : List JNum
  demand : List JNum
  supply : List JNum
  band : Option (List JNum × List JNum)
deriving DecidableEq

/-- The year bucket labels produced for a series. -/
def yearKeys (labels : List String) : List String :=
  sortStr (labels.map yearOf).dedup

/-- The year aggregation of the `Forecasting` component: group quarters
by the year token of their label, sum estimate/demand/supply per
bucket, round those sums to 3 decimals, and list buckets in sorted key
order.  Band sums are carried unrounded. -/
def aggregateByYear (s : ExtendedSeries) : YearAgg :=
  let ys := yearKeys s.labels
  { labels := ys
    estimate := ys.map (fun y => jsRound3 (bucketAdd s.labels s.estimate y))
    demand := ys.map (fun y => jsRound3 (bucketAdd s.labels s.demand y))
    supply := ys.map (fun y => jsRound3 (bucketAdd s.labels s.supply y))
    band :=
      match s.ci with
      | some (lo, up) =>
        some (ys.map (fun y => bucketBand s.labels lo y),
              ys.map (fun y => bucketBand s.labels up y))
      | none => none }

/-! Concrete inputs used by witnesses and counterexamples. -/

def exB1 : SeriesInput :=
  ⟨["Q1 2024"], [.num 1], [.num 1], [.num 1], none, some ⟨["Q2 2024"], [.num 7], none⟩⟩

def exO1 : ExtOpts := ⟨none, none, some (.num 1)⟩

def exB2 : SeriesInput := ⟨["Q1 0999"], [.num 1], [.num 1], [.num 1], none, none⟩

def exO2 : ExtOpts := ⟨none, none, some (.num 1)⟩

def exB3 : SeriesInput := ⟨["Q1 2020"], [.num 1], [.num 1], [.num 1], none, none⟩

def exO3 : ExtOpts := ⟨none, some 2035, some (.num 2)⟩

def exB3w : SeriesInput := ⟨["Q4 2024"], [.num 1], [.num 2], [.num 3], none, none⟩

def exO3w : ExtOpts := ⟨none, some 2025, none⟩

def exB7 : SeriesInput :=
  ⟨["Q1 2024", "Q2 2024"], [.num (-2), .num 2], [.num 5, .num 5], [.num 5, .num 5], none, none⟩

def exO7 : ExtOpts := ⟨none, none, some (.num 1)⟩

def exB7w : SeriesInput := ⟨["Q1 2024"], [.num 2], [.num 4], [.num 4], none, none⟩

def exB8 : SeriesInput :=
  ⟨["Q1 2024"], [.num 10], [.num 10], [.num 10], some ([.num 5], [.num 100]), none⟩

def exO8 : ExtOpts := ⟨none, none, some (.num 1)⟩

def exS9 : ExtendedSeries :=
  ⟨["Q4 2024", "Q1 2025"], [.num 0, .num 0], [.num (1 / 2000), .num 0], [.num 0, .num 0], none⟩

def exS9w : ExtendedSeries :=
  ⟨["Q3 2024", "Q4 2024", "Q1 2025"], [.num 1, .num 2, .num 3], [.num 4, .num 5, .num 6],
   [.num 7, .num 8, .num 9], none⟩

/-! Facts about digit characters and the decimal rendering. -/

theorem digitChar_facts (d : ℕ) (hd : d < 10) :
    isDigitC (digitChar d) = true ∧ digitVal (digitChar d) = d ∧
    isWsC (digitChar d) = false ∧ isSepC (digitChar d) = false ∧
    digitChar d ≠ 'Q' ∧ digitChar d ≠ 'q' := by
  interval_cases d <;> exact ⟨by decide, by decide, by decide, by decide, by decide, by decide⟩

theorem natDigitsGo_eq_of_le :
    ∀ f₁ f₂ n, n ≤ f₁ → n ≤ f₂ → natDigitsGo f₁ n = natDigitsGo f₂ n := by
  intro f₁
  induction f₁ with
  | zero =>
    intro f₂ n h1 _
    interval_cases n
    cases f₂ with
    | zero => rfl
    | succ m => simp [natDigitsGo]
  | succ f ih =>
    intro f₂ n h1 h2
    cases f₂ with
    | zero =>
      interval_cases n
      simp [natDigitsGo]
    | succ m =>
      by_cases hn : n < 10
      · simp [natDigitsGo, hn]
      · simp only [natDigitsGo, hn, if_false]
        have hdiv : n / 10 < n := Nat.div_lt_self (by omega) (by omega)
        rw [ih m (n / 10) (by omega) (by omega)]

theorem natDigits_eq (n : ℕ) :
    natDigits n = if n < 10 then [digitChar n]
      else natDigits (n / 10) ++ [digitChar (n % 10)] := by
  by_cases hn : n < 10
  · cases n with
    | zero => simp [natDigits, natDigitsGo, hn]
    | succ m => simp [natDigits, natDigitsGo, hn]
  · cases n with
    | zero => omega
    | succ m =>
      simp only [natDigits, natDigitsGo, hn, if_false]
      have hdiv : (m + 1) / 10 < m + 1 := Nat.div_lt_self (by omega) (by omega)
      rw [natDigitsGo_eq_of_le m ((m + 1) / 10) ((m + 1) / 10) (by omega) le_rfl]

theorem natDigits_single (n : ℕ) (h : n < 10) : natDigits n = [digitChar n] := by
  rw [natDigits_eq]; simp [h]

theorem natDigits_four (n : ℕ) (h1 : 1000 ≤ n) (h2 : n ≤ 9999) :
    natDigits n = [digitChar (n / 1000), digitChar (n / 100 % 10),
      digitChar (n / 10 % 10), digitChar (n % 10)] := by
  have e1 : n / 10 / 10 = n / 100 := by omega
  have e2 : n / 100 / 10 = n / 1000 := by omega
  rw [natDigits_eq]
  rw [if_neg (by omega)]
  rw [natDigits_eq, if_neg (by omega), e1]
  rw [natDigits_eq, if_neg (by omega), e2]
  rw [natDigits_single (n / 1000) (by omega)]
  simp

theorem intToChars_nonneg (i : ℤ) (h : 0 ≤ i) : intToChars i = natDigits i.toNat := by
  simp [intToChars, not_lt.mpr h]

/-! The parse-format roundtrip for canonical labels with four-digit
years, and the bounds delivered by `parseQuarter`. -/

theorem trimChars_eq_self (l : List Char)
    (hhead : ∀ c, l.head? = some c → isWsC c = false)
    (hlast : ∀ c, l.getLast? = some c → isWsC c = false) :
    trimChars l = l := by
  have h1 : l.dropWhile isWsC = l := by
    cases l with
    | nil => rfl
    | cons c t =>
      have := hhead c rfl
      simp [List.dropWhile, this]
  have h2 : l.reverse.dropWhile isWsC = l.reverse := by
    cases hr : l.reverse with
    | nil => rfl
    | cons c t =>
      have hc : l.getLast? = some c := by
        rw [← List.head?_reverse, hr]; rfl
      have := hlast c hc
      simp [List.dropWhile, this]

  unfold trimChars
  rw [h1, h2, List.reverse_reverse]

theorem matchA_canonical (q1 a b c d : Char) (hqd : isDigitC q1 = true)
    (hqw : isWsC q1 = false) (had : isDigitC a = true) (has : isSepC a = false)
    (hbd : isDigitC b = true) (hcd : isDigitC c = true) (hdd : isDigitC d = true) :
    matchA ('Q' :: q1 :: ' ' :: [a, b, c, d]) =
      some (digitVal q1, 1000 * digitVal a + 100 * digitVal b + 10 * digitVal c + digitVal d) := by
  have hsp : isSepC ' ' = true := by decide
  simp only [matchA, List.dropWhile_cons, hqw, hqd, has, hsp, if_true, if_false,
    Bool.false_eq_true, reduceIte, take4digits, had, hbd, hcd, hdd, and_self, true_or]

theorem parseQuarter_formatQuarter (y q : ℤ)
    (hy1 : 1000 ≤ y) (hy2 : y ≤ 9999) (hq1 : 1 ≤ q) (hq2 : q ≤ 4) :
    parseQuarter (formatQuarter y q) = some ⟨y, q, y * 4 + (q - 1)⟩ := by
  have hqn : q.toNat < 10 := by omega
  have hyn1 : 1000 ≤ y.toNat := by omega
  have hyn2 : y.toNat ≤ 9999 := by omega
  obtain ⟨hqd, hqv, hqw, hqs, hqQ, hqq⟩ := digitChar_facts q.toNat hqn
  obtain ⟨had, hav, haw, has, -, -⟩ := digitChar_facts (y.toNat / 1000) (by omega)
  obtain ⟨hbd, hbv, hbw, hbs, -, -⟩ := digitChar_facts (y.toNat / 100 % 10) (by omega)
  obtain ⟨hcd, hcv, hcw, hcs, -, -⟩ := digitChar_facts (y.toNat / 10 % 10) (by omega)
  obtain ⟨hdd, hdv, hdw, hds, -, -⟩ := digitChar_facts (y.toNat % 10) (by omega)
  have hq' : intToChars q = [digitChar q.toNat] := by
    rw [intToChars_nonneg q (by omega), natDigits_single q.toNat hqn]
  have hy' : intToChars y = [digitChar (y.toNat / 1000), digitChar (y.toNat / 100 % 10),
      digitChar (y.toNat / 10 % 10), digitChar (y.toNat % 10)] := by
    rw [intToChars_nonneg y (by omega), natDigits_four y.toNat hyn1 hyn2]
  have hdata : (formatQuarter y q).data =
      'Q' :: digitChar q.toNat :: ' ' :: [digitChar (y.toNat / 1000),
        digitChar (y.toNat / 100 % 10), digitChar (y.toNat / 10 % 10),
        digitChar (y.toNat % 10)] := by
    show ('Q' :: intToChars q ++ ' ' :: intToChars y) = _
    rw [hq', hy']
    rfl
  have hne : formatQuarter y q ≠ "" := by
    intro h
    have := congrArg String.data h
    rw [hdata] at this
    simp at this
  have htrim : trimChars (formatQuarter y q).data = (formatQuarter y q).data := by
    apply trimChars_eq_self
    · intro c hc
      rw [hdata] at hc
      simp at hc
      rw [← hc]
      decide
    · intro c hc
      rw [hdata] at hc
      simp at hc
      rw [← hc]
      exact hdw
  have hmA : matchA ('Q' :: digitChar q.toNat :: ' ' :: [digitChar (y.toNat / 1000),
      digitChar (y.toNat / 100 % 10), digitChar (y.toNat / 10 % 10),
      digitChar (y.toNat % 10)]) = some (q.toNat, y.toNat) := by
    rw [matchA_canonical _ _ _ _ _ hqd hqw had has hbd hcd hdd]
    rw [hav, hbv, hcv, hdv, hqv]
    have : 1000 * (y.toNat / 1000) + 100 * (y.toNat / 100 % 10) +
        10 * (y.toNat / 10 % 10) + y.toNat % 10 = y.toNat := by omega
    rw [this]
  have hcond : ¬ (y.toNat = 0 ∨ q.toNat = 0 ∨ q.toNat < 1 ∨ q.toNat > 4) := by omega
  unfold parseQuarter
  rw [if_neg hne, htrim, hdata]
  simp only [scanQuarter]
  rw [hmA]
  dsimp only
  rw [if_neg hcond]
  congr 1
  have hyy : (y.toNat : ℤ) = y := by omega
  have hqq2 : (q.toNat : ℤ) = q := by omega
  rw [hyy, hqq2]

theorem digitVal_le_of_isDigitC (c : Char) (h : isDigitC c = true) : digitVal c ≤ 9 := by
  unfold isDigitC at h
  simp only [decide_eq_true_eq] at h
  obtain ⟨h1, h2⟩ := h
  have b1 : 48 ≤ c.toNat := h1
  have b2 : c.toNat ≤ 57 := h2
  unfold digitVal
  omega

theorem take4digits_le (l : List Char) (y : ℕ) (h : take4digits l = some y) : y ≤ 9999 := by
  unfold take4digits at h
  split at h
  next a b c d t =>
    split at h
    next hcond =>
      obtain ⟨h1, h2, h3, h4⟩ := hcond
      have ha := digitVal_le_of_isDigitC a h1
      have hb := digitVal_le_of_isDigitC b h2
      have hc := digitVal_le_of_isDigitC c h3
      have hd := digitVal_le_of_isDigitC d h4
      have hy := Option.some.inj h
      omega
    next => simp at h
  next => simp at h

theorem matchA_year_le (l : List Char) (q y : ℕ) (h : matchA l = some (q, y)) :
    y ≤ 9999 := by
  unfold matchA at h
  split at h
  next => simp at h
  next c rest =>
    split at h
    next =>
      split at h
      next => simp at h
      next d rest2 =>
        split at h
        next =>
          split at h
          next y2 hy2 =>
            have hle := take4digits_le _ _ hy2
            simp only [Option.some.injEq, Prod.mk.injEq] at h
            omega
          next => simp at h
        next => simp at h
    next => simp at h

theorem matchB_year_le (prev : Option Char) (l : List Char) (q y : ℕ)
    (h : matchB prev l = some (q, y)) : y ≤ 9999 := by
  unfold matchB at h
  split at h
  next => simp at h
  next =>
    split at h
    next => simp at h
    next y2 hy2 =>
      have hle := take4digits_le _ _ hy2
      split at h
      next => simp at h
      next c rest2 =>
        split at h
        next =>
          split at h
          next => simp at h
          next d rest3 =>
            split at h
            next =>
              simp only [Option.some.injEq, Prod.mk.injEq] at h
              omega
            next => simp at h
        next => simp at h

theorem scanQuarter_year_le (l : List Char) (prev : Option Char) (q y : ℕ)
    (h : scanQuarter prev l = some (q, y)) : y ≤ 9999 := by
  induction l generalizing prev with
  | nil => simp [scanQuarter] at h
  | cons c rest ih =>
    simp only [scanQuarter] at h
    split at h
    next r hr =>
      obtain ⟨rfl⟩ := Option.some.inj h
      exact matchA_year_le _ q y (by rw [hr])
    next =>
      split at h
      next r hr =>
        obtain ⟨rfl⟩ := Option.some.inj h
        exact matchB_year_le prev _ q y (by rw [hr])
      next => exact ih (some c) h

theorem parseQuarter_bounds (s : String) (p : Quarter) (h : parseQuarter s = some p) :
    1 ≤ p.quarter ∧ p.quarter ≤ 4 ∧ 1 ≤ p.year ∧ p.year ≤ 9999 ∧
      p.key = 4 * p.year + p.quarter - 1 := by
  unfold parseQuarter at h
  split at h
  next => simp at h
  next =>
    split at h
    next => simp at h
    next q y hscan =>
      split at h
      next => simp at h
      next hcond =>
        obtain ⟨rfl⟩ := Option.some.inj h
        push_neg at hcond
        obtain ⟨hy0, hq0, hq1, hq4⟩ := hcond
        have hle := scanQuarter_year_le _ _ _ _ hscan
        refine ⟨by simp; omega, by simp; omega, by simp; omega, by simp; omega, ?_⟩
        simp
        ring

/-! Facts about `nextQuarter` and the appended-quarter list. -/

theorem nextQuarter_quarter_bounds (p : Quarter) (h : 1 ≤ p.quarter ∧ p.quarter ≤ 4) :
    1 ≤ (nextQuarter p).quarter ∧ (nextQuarter p).quarter ≤ 4 := by
  unfold nextQuarter
  by_cases h4 : p.quarter = 4 <;> simp [h4] <;> omega

theorem nextQuarter_year_ge (p : Quarter) : p.year ≤ (nextQuarter p).year := by
  unfold nextQuarter
  by_cases h4 : p.quarter = 4 <;> simp [h4] <;> omega

theorem nextQuarter_year_cases (p : Quarter) :
    (p.quarter = 4 → (nextQuarter p).year = p.year + 1) ∧
    (p.quarter ≠ 4 → (nextQuarter p).year = p.year) := by
  constructor <;> intro h <;> simp [nextQuarter, h]

theorem nextQuarter_key (p : Quarter) :
    (nextQuarter p).key = 4 * (nextQuarter p).year + (nextQuarter p).quarter - 1 := by
  unfold nextQuarter
  by_cases h4 : p.quarter = 4 <;> simp [h4] <;> ring

theorem nextQuarter_lin (p : Quarter) (h : 1 ≤ p.quarter ∧ p.quarter ≤ 4) :
    4 * (nextQuarter p).year + (nextQuarter p).quarter =
      4 * p.year + p.quarter + 1 := by
  unfold nextQuarter
  by_cases h4 : p.quarter = 4 <;> simp [h4] <;> omega

theorem nextQuarter_key_succ (p : Quarter)
    (h : 1 ≤ p.quarter ∧ p.quarter ≤ 4) (hk : p.key = 4 * p.year + p.quarter - 1) :
    (nextQuarter p).key = p.key + 1 := by
  have h1 := nextQuarter_key p
  have h2 := nextQuarter_lin p h
  omega

/-- The loop is the fold of `pushQuarter` over the appended quarters. -/
theorem extendLoopGo_eq_foldl (e : ℚ) (mf : Option ℕ) (ctx : ExtCtx) :
    ∀ (fuel : ℕ) (p : Quarter) (added : ℕ) (st : ExtendedSeries),
      extendLoopGo e mf ctx fuel p added st =
        (appendedList e mf fuel p added).foldl (pushQuarter ctx) st := by
  intro fuel
  induction fuel with
  | zero => intro p added st; rfl
  | succ f ih =>
    intro p added st
    simp only [extendLoopGo, appendedList]
    by_cases h1 : (p.year : ℚ) ≤ e
    · rw [if_pos h1, if_pos h1]
      by_cases h2 : stopFlag mf added = true
      · rw [if_pos h2, if_pos h2]; rfl
      · rw [if_neg h2, if_neg h2]
        by_cases h3 : e < ((nextQuarter p).year : ℚ)
        · rw [if_pos h3, if_pos h3]; rfl
        · rw [if_neg h3, if_neg h3]
          rw [ih]
          rfl
    · rw [if_neg h1, if_neg h1]; rfl

/-! Shape of the state after folding `pushQuarter` over any quarter
list: each array is extended by one value per quarter, and the appended
values are described by the `Ext` functions. -/

theorem foldl_push_labels (ctx : ExtCtx) :
    ∀ (Q : List Quarter) (st : ExtendedSeries),
      (Q.foldl (pushQuarter ctx) st).labels = st.labels ++ Q.map qLabel := by
  intro Q
  induction Q with
  | nil => intro st; simp
  | cons p ps ih =>
    intro st
    simp only [List.foldl_cons, List.map_cons]
    rw [ih]
    simp [pushQuarter]

theorem foldl_push_demand (ctx : ExtCtx) :
    ∀ (Q : List Quarter) (st : ExtendedSeries),
      (Q.foldl (pushQuarter ctx) st).demand =
        st.demand ++ demandExt ctx.fM ctx.mM st.demand Q := by
  intro Q
  induction Q with
  | nil => intro st; simp [demandExt]
  | cons p ps ih =>
    intro st
    simp only [List.foldl_cons, demandExt]
    rw [ih]
    simp [pushQuarter]

theorem foldl_push_estimate (ctx : ExtCtx) :
    ∀ (Q : List Quarter) (st : ExtendedSeries),
      (Q.foldl (pushQuarter ctx) st).estimate =
        st.estimate ++ estimateExt ctx.fM ctx.mM ctx.rE st.demand st.estimate Q := by
  intro Q
  induction Q with
  | nil => intro st; simp [estimateExt]
  | cons p ps ih =>
    intro st
    simp only [List.foldl_cons, estimateExt]
    rw [ih]
    simp [pushQuarter]

theorem foldl_push_supply (ctx : ExtCtx) :
    ∀ (Q : List Quarter) (st : ExtendedSeries),
      (Q.foldl (pushQuarter ctx) st).supply =
        st.supply ++ estimateExt ctx.fM ctx.mM ctx.rS st.demand st.supply Q := by
  intro Q
  induction Q with
  | nil => intro st; simp [estimateExt]
  | cons p ps ih =>
    intro st
    simp only [List.foldl_cons, estimateExt]
    rw [ih]
    simp [pushQuarter]

theorem foldl_push_ci_none (ctx : ExtCtx) :
    ∀ (Q : List Quarter) (st : ExtendedSeries), st.ci = none →
      (Q.foldl (pushQuarter ctx) st).ci = none := by
  intro Q
  induction Q with
  | nil => intro st h; simpa
  | cons p ps ih =>
    intro st h
    simp only [List.foldl_cons]
    apply ih
    simp [pushQuarter, h]

theorem foldl_push_ci_some (ctx : ExtCtx) :
    ∀ (Q : List Quarter) (st : ExtendedSeries) (lo up : List JNum),
      st.ci = some (lo, up) →
      (Q.foldl (pushQuarter ctx) st).ci =
        some (lo ++ (bandExt ctx.fM ctx.mM ctx.fC ctx.mC ctx.lsp st.demand Q).map Prod.fst,
              up ++ (bandExt ctx.fM ctx.mM ctx.fC ctx.mC ctx.lsp st.demand Q).map Prod.snd) := by
  intro Q
  induction Q with
  | nil => intro st lo up h; simp [bandExt, h]
  | cons p ps ih =>
    intro st lo up h
    simp only [List.foldl_cons, bandExt]
    rw [ih (pushQuarter ctx st p)
      (lo ++ [(bandStep ctx.fC ctx.mC ctx.lsp (qLabel p)
        (resolveDemand ctx.fM ctx.mM (qLabel p) st.demand)).1])
      (up ++ [(bandStep ctx.fC ctx.mC ctx.lsp (qLabel p)
        (resolveDemand ctx.fM ctx.mM (qLabel p) st.demand)).2])
      (by simp [pushQuarter, h])]
    simp [pushQuarter]

theorem demandExt_length (fM mM : List (String × ℚ)) :
    ∀ (Q : List Quarter) (hist : List JNum), (demandExt fM mM hist Q).length = Q.length := by
  intro Q
  induction Q with
  | nil => intro hist; simp [demandExt]
  | cons p ps ih => intro hist; simp [demandExt, ih]

theorem estimateExt_length (fM mM : List (String × ℚ)) (r : Option ℚ) :
    ∀ (Q : List Quarter) (dh eh : List JNum),
      (estimateExt fM mM r dh eh Q).length = Q.length := by
  intro Q
  induction Q with
  | nil => intro dh eh; simp [estimateExt]
  | cons p ps ih => intro dh eh; simp [estimateExt, ih]

theorem bandExt_length (fM mM : List (String × ℚ)) (fC mC : List (String × (ℚ × ℚ)))
    (lsp : JNum) :
    ∀ (Q : List Quarter) (dh : List JNum),
      (bandExt fM mM fC mC lsp dh Q).length = Q.length := by
  intro Q
  induction Q with
  | nil => intro dh; simp [bandExt]
  | cons p ps ih => intro dh; simp [bandExt, ih]

theorem demandExt_get (fM mM : List (String × ℚ)) :
    ∀ (Q : List Quarter) (hist : List JNum) (k : ℕ), k < Q.length →
      (demandExt fM mM hist Q).get? k =
        some (.num (resolveDemand fM mM (qLabel (Q.getD k default))
          (hist ++ (demandExt fM mM hist Q).take k))) := by
  intro Q
  induction Q with
  | nil => intro hist k hk; simp at hk
  | cons p ps ih =>
    intro hist k hk
    cases k with
    | zero => simp [demandExt]
    | succ k =>
      simp only [demandExt, List.get?_cons_succ, List.getD_cons_succ, List.take_succ_cons]
      rw [ih (hist ++ [JNum.num (resolveDemand fM mM (qLabel p) hist)]) k (by simpa using hk)]
      simp

theorem estimateExt_get (fM mM : List (String × ℚ)) (r : Option ℚ) :
    ∀ (Q : List Quarter) (dh eh : List JNum) (k : ℕ), k < Q.length →
      (estimateExt fM mM r dh eh Q).get? k =
        some (.num (deriveVal r
          (resolveDemand fM mM (qLabel (Q.getD k default))
            (dh ++ (demandExt fM mM dh Q).take k))
          (eh ++ (estimateExt fM mM r dh eh Q).take k))) := by
  intro Q
  induction Q with
  | nil => intro dh eh k hk; simp at hk
  | cons p ps ih =>
    intro dh eh k hk
    cases k with
    | zero => simp [estimateExt, demandExt]
    | succ k =>
      simp only [estimateExt, demandExt, List.get?_cons_succ, List.getD_cons_succ,
        List.take_succ_cons]
      rw [ih (dh ++ [JNum.num (resolveDemand fM mM (qLabel p) dh)])
        (eh ++ [JNum.num (deriveVal r (resolveDemand fM mM (qLabel p) dh) eh)]) k
        (by simpa using hk)]
      simp

theorem bandExt_get (fM mM : List (String × ℚ)) (fC mC : List (String × (ℚ × ℚ)))
    (lsp : JNum) :
    ∀ (Q : List Quarter) (dh : List JNum) (k : ℕ), k < Q.length →
      (bandExt fM mM fC mC lsp dh Q).get? k =
        some (bandStep fC mC lsp (qLabel (Q.getD k default))
          (resolveDemand fM mM (qLabel (Q.getD k default))
            (dh ++ (demandExt fM mM dh Q).take k))) := by
  intro Q
  induction Q with
  | nil => intro dh k hk; simp at hk
  | cons p ps ih =>
    intro dh k hk
    cases k with
    | zero => simp [bandExt, demandExt]
    | succ k =>
      simp only [bandExt, demandExt, List.get?_cons_succ, List.getD_cons_succ,
        List.take_succ_cons]
      rw [ih (dh ++ [JNum.num (resolveDemand fM mM (qLabel p) dh)]) k (by simpa using hk)]
      simp

/-! Structure of the appended quarter list. -/

theorem appendedList_cases (e : ℚ) (mf : Option ℕ) (fuel : ℕ) (p : Quarter) (added : ℕ) :
    appendedList e mf fuel p added = [] ∨
      (∃ f, fuel = f + 1 ∧ (p.year : ℚ) ≤ e ∧ stopFlag mf added = false ∧
        ((nextQuarter p).year : ℚ) ≤ e ∧
        appendedList e mf fuel p added =
          nextQuarter p :: appendedList e mf f (nextQuarter p) (added + 1)) := by
  cases fuel with
  | zero => left; rfl
  | succ f =>
    by_cases h1 : (p.year : ℚ) ≤ e
    · by_cases h2 : stopFlag mf added = true
      · left; simp [appendedList, h1, h2]
      · by_cases h3 : e < ((nextQuarter p).year : ℚ)
        · left; simp [appendedList, h1, h2, h3]
        · right
          refine ⟨f, rfl, h1, by simpa using h2, by exact not_lt.mp h3, ?_⟩
          simp [appendedList, h1, h2, h3]
    · left; simp [appendedList, h1]

theorem appendedList_mem (e : ℚ) (mf : Option ℕ) :
    ∀ (fuel : ℕ) (p : Quarter) (added : ℕ) (r : Quarter),
      r ∈ appendedList e mf fuel p added →
      (1 ≤ p.quarter ∧ p.quarter ≤ 4) →
      (1 ≤ r.quarter ∧ r.quarter ≤ 4) ∧ p.year ≤ r.year ∧ ((r.year : ℚ) ≤ e) ∧
        r.key = 4 * r.year + r.quarter - 1 := by
  intro fuel
  induction fuel with
  | zero => intro p added r hr _; simp [appendedList] at hr
  | succ f ih =>
    intro p added r hr hq
    rcases appendedList_cases e mf (f + 1) p added with hnil | ⟨f', hf, h1, h2, h3, heq⟩
    · rw [hnil] at hr; simp at hr
    · have hf' : f' = f := by omega
      subst hf'
      rw [heq] at hr
      rcases List.mem_cons.mp hr with hr0 | hrtl
      · subst hr0
        exact ⟨nextQuarter_quarter_bounds p hq, nextQuarter_year_ge p, h3,
          nextQuarter_key p⟩
      · obtain ⟨hb, hy, hle, hk⟩ := ih (nextQuarter p) (added + 1) r hrtl
          (nextQuarter_quarter_bounds p hq)
        exact ⟨hb, le_trans (nextQuarter_year_ge p) hy, hle, hk⟩

theorem appendedList_chain (e : ℚ) (mf : Option ℕ) :
    ∀ (fuel : ℕ) (p : Quarter) (added : ℕ) (k : ℕ),
      k + 1 < (appendedList e mf fuel p added).length →
      (appendedList e mf fuel p added).getD (k + 1) default =
        nextQuarter ((appendedList e mf fuel p added).getD k default) := by
  intro fuel
  induction fuel with
  | zero => intro p added k hk; simp [appendedList] at hk
  | succ f ih =>
    intro p added k hk
    rcases appendedList_cases e mf (f + 1) p added with hnil | ⟨f', hf, h1, h2, h3, heq⟩
    · rw [hnil] at hk; simp at hk
    · replace hf : f' = f := by omega
      rw [hf] at heq
      rw [heq] at hk ⊢
      cases k with
      | zero =>
        simp only [List.getD_cons_succ, List.getD_cons_zero]
        have hlen : 0 < (appendedList e mf f (nextQuarter p) (added + 1)).length := by
          simp at hk
          omega
        rcases appendedList_cases e mf f (nextQuarter p) (added + 1) with
          hnil2 | ⟨f2, hf2, _, _, _, heq2⟩
        · rw [hnil2] at hlen; simp at hlen
        · rw [heq2]; simp
      | succ k =>
        simp only [List.getD_cons_succ]
        apply ih
        simp at hk
        omega

theorem measureQ_pos (e : ℚ) (p : Quarter) (hq : 1 ≤ p.quarter ∧ p.quarter ≤ 4)
    (h : ((nextQuarter p).year : ℚ) ≤ e) : 1 ≤ measureQ e p := by
  have hfl : (nextQuarter p).year ≤ ⌊e⌋ := Int.le_floor.mpr h
  unfold measureQ
  unfold nextQuarter at hfl
  by_cases h4 : p.quarter = 4
  · simp [h4] at hfl; omega
  · simp [h4] at hfl; omega

theorem measureQ_next (e : ℚ) (p : Quarter) (hq : 1 ≤ p.quarter ∧ p.quarter ≤ 4)
    (h : ((nextQuarter p).year : ℚ) ≤ e) :
    measureQ e (nextQuarter p) = measureQ e p - 1 := by
  have hfl : (nextQuarter p).year ≤ ⌊e⌋ := Int.le_floor.mpr h
  have hlin := nextQuarter_lin p hq
  have hb := nextQuarter_quarter_bounds p hq
  unfold measureQ
  omega

theorem appendedList_nil_iff (e : ℚ) (fuel : ℕ) (p : Quarter) (added : ℕ)
    (hq : 1 ≤ p.quarter ∧ p.quarter ≤ 4) (hfuel : measureQ e p ≤ fuel) :
    appendedList e none fuel p added = [] ↔ ¬ ((nextQuarter p).year : ℚ) ≤ e := by
  constructor
  · intro hnil
    intro hle
    have hpos := measureQ_pos e p hq hle
    have hpy : (p.year : ℚ) ≤ e := by
      calc (p.year : ℚ) ≤ ((nextQuarter p).year : ℚ) := by
            exact_mod_cast nextQuarter_year_ge p
        _ ≤ e := hle
    cases fuel with
    | zero => omega
    | succ f =>
      rw [show appendedList e none (f + 1) p added =
        (if (p.year : ℚ) ≤ e then
          (if stopFlag none added = true then []
           else if e < ((nextQuarter p).year : ℚ) then []
           else nextQuarter p :: appendedList e none f (nextQuarter p) (added + 1))
         else []) from rfl] at hnil
      rw [if_pos hpy] at hnil
      rw [if_neg (by simp [stopFlag])] at hnil
      rw [if_neg (not_lt.mpr hle)] at hnil
      simp at hnil
  · intro hgt
    cases fuel with
    | zero => rfl
    | succ f =>
      by_cases h1 : (p.year : ℚ) ≤ e
      · simp [appendedList, h1, stopFlag, not_le.mp hgt]
      · simp [appendedList, h1]

theorem appendedList_getLast (e : ℚ) :
    ∀ (fuel : ℕ) (p : Quarter) (added : ℕ),
      (1 ≤ p.quarter ∧ p.quarter ≤ 4) → measureQ e p ≤ fuel →
      appendedList e none fuel p added ≠ [] →
      ∃ r, (appendedList e none fuel p added).getLast? = some r ∧
        r.year = ⌊e⌋ ∧ r.quarter = 4 := by
  intro fuel
  induction fuel with
  | zero => intro p added _ _ hne; simp [appendedList] at hne
  | succ f ih =>
    intro p added hq hfuel hne
    rcases appendedList_cases e none (f + 1) p added with hnil | ⟨f', hf, h1, h2, h3, heq⟩
    · exact absurd hnil hne
    · replace hf : f' = f := by omega
      rw [hf] at heq
      have hq' := nextQuarter_quarter_bounds p hq
      have hfuel' : measureQ e (nextQuarter p) ≤ f := by
        have h5 := measureQ_next e p hq h3
        have h6 := measureQ_pos e p hq h3
        omega
      by_cases htl : appendedList e none f (nextQuarter p) (added + 1) = []
      · have hgt : ¬ ((nextQuarter (nextQuarter p)).year : ℚ) ≤ e :=
          (appendedList_nil_iff e f (nextQuarter p) (added + 1) hq' hfuel').mp htl
        have hfl : (nextQuarter p).year ≤ ⌊e⌋ := Int.le_floor.mpr h3
        have h4 : (nextQuarter p).quarter = 4 := by
          by_contra h4
          apply hgt
          rw [(nextQuarter_year_cases (nextQuarter p)).2 h4]
          exact h3
        have hge : ¬ ((nextQuarter (nextQuarter p)).year ≤ ⌊e⌋) :=
          fun hc => hgt (Int.le_floor.mp hc)
        rw [(nextQuarter_year_cases (nextQuarter p)).1 h4] at hge
        refine ⟨nextQuarter p, ?_, by omega, h4⟩
        rw [heq, htl]
        rfl
      · obtain ⟨r, hr, hry, hrq⟩ := ih (nextQuarter p) (added + 1) hq' hfuel' htl
        refine ⟨r, ?_, hry, hrq⟩
        rw [heq]
        cases hl : appendedList e none f (nextQuarter p) (added + 1) with
        | nil => exact absurd hl htl
        | cons a t =>
          rw [hl] at hr
          rw [List.getLast?_cons_cons]
          exact hr

/-! The master characterization of `extendSeriesToYear`: it is the fold
of `pushQuarter` over the appended quarter list. -/

theorem eta_ExtendedSeries (s : ExtendedSeries) :
    (⟨s.labels, s.estimate, s.demand, s.supply, s.ci⟩ : ExtendedSeries) = s := rfl

theorem extendSeriesToYear_eq_foldl (base : SeriesInput) (opts : ExtOpts) :
    extendSeriesToYear base opts =
      (appendedQuarters base opts).foldl (pushQuarter (ctxOf base opts))
        ⟨base.labels, base.estimate, base.demand, base.supply, base.ci⟩ := by
  unfold extendSeriesToYear appendedQuarters
  cases hl : base.labels.getLast? with
  | none => rfl
  | some lastLabel =>
    cases hp : parseQuarter lastLabel with
    | none => simp only [hp]; rfl
    | some lastQuarter =>
      simp only [hp]
      exact extendLoopGo_eq_foldl _ _ _ _ _ _ _

theorem appendedQuarters_eq (base : SeriesInput) (opts : ExtOpts)
    (lastLabel : String) (anchor : Quarter)
    (hl : base.labels.getLast? = some lastLabel)
    (hp : parseQuarter lastLabel = some anchor) :
    appendedQuarters base opts =
      appendedList (effTYOf anchor (opts.targetYear.getD 2035)
          (maxFutureOf opts.maxFutureQuarters))
        (maxFutureOf opts.maxFutureQuarters)
        (measureQ (effTYOf anchor (opts.targetYear.getD 2035)
          (maxFutureOf opts.maxFutureQuarters)) anchor)
        anchor 0 := by
  unfold appendedQuarters
  simp only [hl, hp]

theorem extend_labels (base : SeriesInput) (opts : ExtOpts) :
    (extendSeriesToYear base opts).labels =
      base.labels ++ (appendedQuarters base opts).map qLabel := by
  rw [extendSeriesToYear_eq_foldl]
  exact foldl_push_labels _ _ _

theorem extend_demand (base : SeriesInput) (opts : ExtOpts) :
    (extendSeriesToYear base opts).demand =
      base.demand ++ demandExt (takeForecast base.forecast)
        (takeForecast opts.mlForecast) base.demand (appendedQuarters base opts) := by
  rw [extendSeriesToYear_eq_foldl]
  exact foldl_push_demand _ _ _

theorem extend_estimate (base : SeriesInput) (opts : ExtOpts) :
    (extendSeriesToYear base opts).estimate =
      base.estimate ++ estimateExt (takeForecast base.forecast)
        (takeForecast opts.mlForecast) (averageRatio base.estimate base.demand)
        base.demand base.estimate (appendedQuarters base opts) := by
  rw [extendSeriesToYear_eq_foldl]
  exact foldl_push_estimate _ _ _

theorem extend_supply (base : SeriesInput) (opts : ExtOpts) :
    (extendSeriesToYear base opts).supply =
      base.supply ++ estimateExt (takeForecast base.forecast)
        (takeForecast opts.mlForecast) (averageRatio base.supply base.demand)
        base.demand base.supply (appendedQuarters base opts) := by
  rw [extendSeriesToYear_eq_foldl]
  exact foldl_push_supply _ _ _

theorem extend_ci_none (base : SeriesInput) (opts : ExtOpts) (h : base.ci = none) :
    (extendSeriesToYear base opts).ci = none := by
  rw [extendSeriesToYear_eq_foldl]
  exact foldl_push_ci_none _ _ _ h

theorem extend_ci_some (base : SeriesInput) (opts : ExtOpts) (lo up : List JNum)
    (h : base.ci = some (lo, up)) :
    (extendSeriesToYear base opts).ci =
      some (lo ++ (bandExt (takeForecast base.forecast) (takeForecast opts.mlForecast)
              (ciMap base.forecast) (ciMap opts.mlForecast) (lastSpreadOf base)
              base.demand (appendedQuarters base opts)).map Prod.fst,
            up ++ (bandExt (takeForecast base.forecast) (takeForecast opts.mlForecast)
              (ciMap base.forecast) (ciMap opts.mlForecast) (lastSpreadOf base)
              base.demand (appendedQuarters base opts)).map Prod.snd) := by
  rw [extendSeriesToYear_eq_foldl]
  exact foldl_push_ci_some _ _ _ lo up h

theorem extend_labels_length (base : SeriesInput) (opts : ExtOpts) :
    (extendSeriesToYear base opts).labels.length =
      base.labels.length + (appendedQuarters base opts).length := by
  rw [extend_labels]
  simp

/-- The label of the `k`-th appended quarter. -/
theorem extend_labels_getD (base : SeriesInput) (opts : ExtOpts) (k : ℕ)
    (hk : k < (appendedQuarters base opts).length) :
    (extendSeriesToYear base opts).labels.getD (base.labels.length + k) "" =
      qLabel ((appendedQuarters base opts).getD k default) := by
  rw [extend_labels]
  rw [List.getD_eq_getElem _ _ (by simp; omega)]
  rw [List.getElem_append_right (by simp)]
  simp only [List.getElem_map]
  rw [← List.getD_eq_getElem _ default (by simp; omega)]
  have hsub : base.labels.length + k - base.labels.length = k := by omega
  rw [hsub]

/-! Helper facts for the ratio and trend components. -/

theorem foldl_add_eq_sum : ∀ (l : List ℚ) (a : ℚ), l.foldl (· + ·) a = a + l.sum := by
  intro l
  induction l with
  | nil => intro a; simp
  | cons x t ih =>
    intro a
    simp only [List.foldl_cons, List.sum_cons]
    rw [ih]
    ring

theorem ratioList_eq_filterMap : ∀ ns ds : List JNum,
    ratioList ns ds = (ns.zip ds).filterMap fun e =>
      match e.1, e.2 with
      | .num a, .num b => if b = 0 then none else some (a / b)
      | _, _ => none := by
  intro ns
  induction ns with
  | nil => intro ds; cases ds <;> simp [ratioList]
  | cons n nt ih =>
    intro ds
    cases ds with
    | nil => simp [ratioList]
    | cons d dt =>
      cases n with
      | num a =>
        cases d with
        | num b =>
          by_cases hb : b = 0 <;> simp [ratioList, hb, ih]
        | nan => simp [ratioList, ih]
        | inf => simp [ratioList, ih]
        | ninf => simp [ratioList, ih]
      | nan => cases d <;> simp [ratioList, ih]
      | inf => cases d <;> simp [ratioList, ih]
      | ninf => cases d <;> simp [ratioList, ih]

theorem zipWith_diff_sum : ∀ (l : List ℚ),
    (List.zipWith (fun a b => b - a) l (l.drop 1)).sum =
      l.getLast?.getD 0 - l.head?.getD 0 := by
  intro l
  induction l with
  | nil => simp
  | cons a t ih =>
    cases t with
    | nil => simp
    | cons b t2 =>
      simp only [List.drop_succ_cons, List.drop_zero, List.zipWith_cons_cons, List.sum_cons]
      have h2 : (List.zipWith (fun a b => b - a) (b :: t2) ((b :: t2).drop 1)).sum =
          (b :: t2).getLast?.getD 0 - b := by
        rw [ih]
        simp
      simp only [List.drop_succ_cons, List.drop_zero] at h2
      rw [h2]
      simp only [List.getLast?_cons_cons, List.head?_cons, Option.getD_some]
      ring

theorem zipWith_diff_length (l : List ℚ) :
    (List.zipWith (fun a b => b - a) l (l.drop 1)).length = l.length - 1 := by
  simp

/-! ### C4 — `parseQuarter` on the two label formats

The spec's example value `key = 8099` contradicts the code (and the
spec's own key formula): `parseQuarter` computes
`key = year*4 + (quarter-1) = 8098` for Q3 2024. -/

/-- C4, counterexample: the claim states `parseQuarter "Q3 2024"` has
key 8099; the code computes 8098, so the claimed tuple is not the
result. -/
theorem c4_counterexample :
    parseQuarter "Q3 2024" ≠ some ⟨2024, 3, 8099⟩ := by decide

/-- C4, amended: `parseQuarter "Q3 2024"` and `parseQuarter "2024 Q3"`
both return `{year := 2024, quarter := 3, key := 8098}` (the two label
formats are parse-equivalent; the key is `year*4 + (quarter-1)`). -/
theorem c4_parse_equivalence :
    parseQuarter "Q3 2024" = some ⟨2024, 3, 8098⟩ ∧
    parseQuarter "2024 Q3" = some ⟨2024, 3, 8098⟩ ∧
    (2024 : ℤ) * 4 + (3 - 1) = 8098 := by
  refine ⟨by decide, by decide, by decide⟩

/-! ### C5 — `projectNextValue` -/

/-- C5, counterexample: the claim asserts the result is always
non-negative, but a series whose trailing window holds a single
negative finite value is returned as is: `projectNextValue [-5] = -5`. -/
theorem c5_counterexample :
    projectNextValue [JNum.num (-5)] = -5 ∧ ¬ (0 ≤ projectNextValue [JNum.num (-5)]) := by
  constructor
  · decide
  · decide

/-- C5, amended: `projectNextValue` filters to finite values and
returns 0 if none remain; it takes the trailing window of at most 4
values; with a single value remaining it returns that value unchanged
(which may be negative); with at least two values it returns
`max 0 (last + slope)` where the slope — the mean of consecutive first
differences — telescopes to `(last - first)/(length - 1)`, and the
result of this branch is non-negative.  The worked examples
`projectNextValue [10,12,11,13] = 14` and `projectNextValue [5] = 5`
hold. -/
theorem c5_projectNextValue (s : List JNum) :
    projectNextValue [JNum.num 10, JNum.num 12, JNum.num 11, JNum.num 13] = 14 ∧
    projectNextValue [JNum.num 5] = 5 ∧
    (trailingWindow s = [] → projectNextValue s = 0) ∧
    ((trailingWindow s).length = 1 →
      projectNextValue s = ((trailingWindow s).getLast?).getD 0) ∧
    (2 ≤ (trailingWindow s).length →
      projectNextValue s = max 0 (((trailingWindow s).getLast?).getD 0 +
        (((trailingWindow s).getLast?).getD 0 - ((trailingWindow s).head?).getD 0) /
          (((trailingWindow s).length : ℚ) - 1)) ∧
      0 ≤ projectNextValue s) := by
  have hwin : ∀ (values : List ℚ), values ≠ [] → values.drop (values.length - 4) ≠ [] := by
    intro values hne
    have hlen : (values.drop (values.length - 4)).length = values.length - (values.length - 4) := by
      simp
    intro hnil
    rw [hnil] at hlen
    simp at hlen
    have : 0 < values.length := List.length_pos.mpr hne
    omega
  have hfm4 : (List.filterMap (fun v => match v with | JNum.num q => some q | _ => none)
      [JNum.num 10, JNum.num 12, JNum.num 11, JNum.num 13]) = [10, 12, 11, 13] := rfl
  have hfm1 : (List.filterMap (fun v => match v with | JNum.num q => some q | _ => none)
      [JNum.num 5]) = [5] := rfl
  refine ⟨?_, ?_, ?_, ?_, ?_⟩
  · norm_num [projectNextValue, hfm4]
    decide
  · norm_num [projectNextValue, hfm1]
  · intro hw
    simp only [trailingWindow] at hw
    simp only [projectNextValue]
    by_cases hv : (s.filterMap fun v => match v with | .num q => some q | _ => none) = []
    · simp [hv]
    · exact absurd hw (hwin _ hv)
  · intro hw
    simp only [trailingWindow] at hw
    have hv : ¬ (s.filterMap fun v => match v with | .num q => some q | _ => none) = [] := by
      intro hv
      rw [hv] at hw
      simp at hw
    simp only [projectNextValue, trailingWindow]
    rw [if_neg hv, if_pos (by omega)]
  · intro hw
    simp only [trailingWindow] at hw
    have hv : ¬ (s.filterMap fun v => match v with | .num q => some q | _ => none) = [] := by
      intro hv
      rw [hv] at hw
      simp at hw
    simp only [projectNextValue, trailingWindow]
    rw [if_neg hv, if_neg (by omega)]
    refine ⟨?_, le_max_left 0 _⟩
    congr 1
    congr 1
    rw [foldl_add_eq_sum, zero_add, zipWith_diff_sum, zipWith_diff_length]
    congr 1
    have h2 : 2 ≤ (List.drop
        ((List.filterMap (fun v => match v with | JNum.num q => some q | _ => none) s).length - 4)
        (List.filterMap (fun v => match v with | JNum.num q => some q | _ => none) s)).length := hw
    push_cast [Nat.cast_sub (by omega : 1 ≤ (List.drop
        ((List.filterMap (fun v => match v with | JNum.num q => some q | _ => none) s).length - 4)
        (List.filterMap (fun v => match v with | JNum.num q => some q | _ => none) s)).length)]
    norm_num

/-- C5, witness: the slope branch at the concrete series `[1, 5]`
(window `[1,5]`, slope 4): the projection equals
`max 0 (5 + (5-1)/(2-1)) = 9` and is non-negative. -/
theorem c5_witness :
    projectNextValue [JNum.num 1, JNum.num 5] =
      max 0 (((trailingWindow [JNum.num 1, JNum.num 5]).getLast?).getD 0 +
        (((trailingWindow [JNum.num 1, JNum.num 5]).getLast?).getD 0 -
          ((trailingWindow [JNum.num 1, JNum.num 5]).head?).getD 0) /
          (((trailingWindow [JNum.num 1, JNum.num 5]).length : ℚ) - 1)) ∧
    0 ≤ projectNextValue [JNum.num 1, JNum.num 5] :=
  (c5_projectNextValue [JNum.num 1, JNum.num 5]).2.2.2.2 (by decide)

/-! ### C6 — `averageRatio` -/

/-- C6: `averageRatio` pairs elements positionally up to the shorter
length (`zip`), keeps exactly the pairs where both values are finite
and the denominator is non-zero, and returns the arithmetic mean of the
kept quotients, or `none` when no pair is kept; in particular
`averageRatio [10,20] [5,0] = 2`. -/
theorem c6_averageRatio (ns ds : List JNum) :
    (averageRatio ns ds =
      if ((ns.zip ds).filterMap fun e =>
            match e.1, e.2 with
            | .num a, .num b => if b = 0 then none else some (a / b)
            | _, _ => none) = []
      then none
      else some (((ns.zip ds).filterMap fun e =>
            match e.1, e.2 with
            | .num a, .num b => if b = 0 then none else some (a / b)
            | _, _ => none).sum /
          ((((ns.zip ds).filterMap fun e =>
            match e.1, e.2 with
            | .num a, .num b => if b = 0 then none else some (a / b)
            | _, _ => none).length : ℚ)))) ∧
    averageRatio [JNum.num 10, JNum.num 20] [JNum.num 5, JNum.num 0] = some 2 := by
  constructor
  · unfold averageRatio
    rw [ratioList_eq_filterMap]
    by_cases h : ((ns.zip ds).filterMap fun e =>
        match e.1, e.2 with
        | .num a, .num b => if b = 0 then none else some (a / b)
        | _, _ => none) = []
    · rw [if_pos h, if_pos h]
    · rw [if_neg h, if_neg h]
      rw [foldl_add_eq_sum, zero_add]
  · norm_num [averageRatio, ratioList]

/-! ### C1 — demand resolution priority -/

/-- C1: every appended quarter's demand value is resolved with the
priority order "explicit forecast map value, else ML forecast map
value, else trend projection of the demand so far" (`resolveDemand`),
and in particular, when the `base.forecast` map supplies a value for
every appended label, the appended demand values equal those forecast
values exactly. -/
theorem c1_demand_priority (base : SeriesInput) (opts : ExtOpts) (k : ℕ)
    (hk : base.labels.length + k < (extendSeriesToYear base opts).labels.length) :
    (extendSeriesToYear base opts).demand.get? (base.demand.length + k) =
      some (JNum.num (resolveDemand (takeForecast base.forecast)
        (takeForecast opts.mlForecast)
        ((extendSeriesToYear base opts).labels.getD (base.labels.length + k) "")
        ((extendSeriesToYear base opts).demand.take (base.demand.length + k)))) ∧
    ((∀ j, base.labels.length + j < (extendSeriesToYear base opts).labels.length →
        (mapGet (takeForecast base.forecast)
          ((extendSeriesToYear base opts).labels.getD (base.labels.length + j) "")).isSome) →
      ∃ v, mapGet (takeForecast base.forecast)
          ((extendSeriesToYear base opts).labels.getD (base.labels.length + k) "") = some v ∧
        (extendSeriesToYear base opts).demand.get? (base.demand.length + k) =
          some (JNum.num v)) := by
  have hkQ : k < (appendedQuarters base opts).length := by
    have := extend_labels_length base opts
    omega
  have hlab := extend_labels_getD base opts k hkQ
  have hget : (extendSeriesToYear base opts).demand.get? (base.demand.length + k) =
      some (JNum.num (resolveDemand (takeForecast base.forecast)
        (takeForecast opts.mlForecast)
        (qLabel ((appendedQuarters base opts).getD k default))
        (base.demand ++ (demandExt (takeForecast base.forecast)
          (takeForecast opts.mlForecast) base.demand
          (appendedQuarters base opts)).take k))) := by
    rw [extend_demand]
    rw [List.get?_append_right (by omega)]
    have hsub : base.demand.length + k - base.demand.length = k := by omega
    rw [hsub]
    exact demandExt_get _ _ _ _ k hkQ
  have htake : (extendSeriesToYear base opts).demand.take (base.demand.length + k) =
      base.demand ++ (demandExt (takeForecast base.forecast)
        (takeForecast opts.mlForecast) base.demand
        (appendedQuarters base opts)).take k := by
    rw [extend_demand]
    exact List.take_append k
  constructor
  · rw [hget, hlab, htake]
  · intro hcov
    obtain ⟨v, hv⟩ := Option.isSome_iff_exists.mp (hcov k hk)
    refine ⟨v, hv, ?_⟩
    rw [hlab] at hv
    rw [hget]
    unfold resolveDemand
    rw [hv]

/-- C1, witness: a base series anchored at Q1 2024 whose forecast
covers the single appended quarter Q2 2024 with value 7: the appended
demand value is exactly the forecast value. -/
theorem c1_witness :
    ∃ v, mapGet (takeForecast exB1.forecast)
        ((extendSeriesToYear exB1 exO1).labels.getD (exB1.labels.length + 0) "") = some v ∧
      (extendSeriesToYear exB1 exO1).demand.get? (exB1.demand.length + 0) =
        some (JNum.num v) := by
  have hp : parseQuarter "Q1 2024" = some ⟨2024, 1, 8096⟩ := by decide
  have hf : formatQuarter 2024 2 = "Q2 2024" := by decide
  have hL : (extendSeriesToYear exB1 exO1).labels = ["Q1 2024", "Q2 2024"] := by
    norm_num [extendSeriesToYear, maxFutureOf, effTYOf, ceilDiv4, measureQ, hp,
      extendLoopGo, stopFlag, nextQuarter, pushQuarter, qLabel, hf, exB1, exO1]
  apply (c1_demand_priority exB1 exO1 0 (by rw [hL]; decide)).2
  intro j hj
  rw [hL] at hj
  have hj0 : j = 0 := by
    have : exB1.labels.length = 1 := by decide
    simp [this] at hj
    omega
  subst hj0
  rw [hL]
  decide

/-! ### C7 — estimate/supply derivation policy

The source guards the ratio branch with JavaScript truthiness
(`ratioEstimate && ...`), so a defined ratio equal to `0` falls through
to the trend projection, contradicting the claim that the ratio branch
is taken "even when the defined ratio equals 0". -/

/-- C7, counterexample: for a base with `estimate = [-2, 2]` and
`demand = [5, 5]`, `averageRatio` is defined and equals `0`, the
appended `nextDemand` is the finite value `5`, yet the appended
estimate is the trend projection `6`, not `max 0 (5 * 0) = 0`. -/
theorem c7_counterexample :
    averageRatio exB7.estimate exB7.demand = some 0 ∧
    (extendSeriesToYear exB7 exO7).demand = [.num 5, .num 5, .num 5] ∧
    (extendSeriesToYear exB7 exO7).estimate = [.num (-2), .num 2, .num 6] ∧
    (6 : ℚ) ≠ max 0 (5 * 0) := by
  have hp2 : parseQuarter "Q2 2024" = some ⟨2024, 2, 8097⟩ := by decide
  have hf : qLabel ⟨2024, 3, 8098⟩ = "Q3 2024" := by decide
  have hfm : (List.filterMap (fun v => match v with | JNum.num q => some q | _ => none)
      [JNum.num 5, JNum.num 5]) = [5, 5] := rfl
  have hfme : (List.filterMap (fun v => match v with | JNum.num q => some q | _ => none)
      [JNum.num (-2), JNum.num 2]) = [-2, 2] := rfl
  have hQ : appendedQuarters exB7 exO7 = [⟨2024, 3, 8098⟩] := by
    norm_num [appendedQuarters, hp2, maxFutureOf, effTYOf, ceilDiv4, measureQ,
      appendedList, stopFlag, nextQuarter, exB7, exO7]
  have hrE : averageRatio exB7.estimate exB7.demand = some 0 := by
    norm_num [averageRatio, ratioList, exB7]
    all_goals intro h
    all_goals simp at h
  refine ⟨hrE, ?_, ?_, by norm_num⟩
  · rw [extend_demand, hQ]
    norm_num [demandExt, resolveDemand, mapGet, takeForecast, exB7, exO7,
      projectNextValue, hfm, hf]
    all_goals decide
  · rw [extend_estimate, hQ, hrE]
    norm_num [estimateExt, resolveDemand, deriveVal, mapGet, takeForecast, exB7, exO7,
      projectNextValue, hfm, hfme, hf]
    all_goals decide

/-- C7, amended: for every appended quarter, the extended estimate
value equals `max 0 (nextDemand * ratioEstimate)` whenever
`ratioEstimate = averageRatio(estimate, demand)` is defined and
non-zero (JavaScript truthiness) and `nextDemand` is finite, and equals
the trend projection of the estimate-so-far when the ratio is undefined
or equals 0; the same policy holds independently for supply using
`ratioSupply`. -/
theorem c7_estimate_supply_policy (base : SeriesInput) (opts : ExtOpts) (k : ℕ)
    (hk : base.labels.length + k < (extendSeriesToYear base opts).labels.length) :
    (∀ r d, averageRatio base.estimate base.demand = some r → r ≠ 0 →
      (extendSeriesToYear base opts).demand.get? (base.demand.length + k) =
        some (JNum.num d) →
      (extendSeriesToYear base opts).estimate.get? (base.estimate.length + k) =
        some (JNum.num (max 0 (d * r)))) ∧
    ((averageRatio base.estimate base.demand = none ∨
        averageRatio base.estimate base.demand = some 0) →
      (extendSeriesToYear base opts).estimate.get? (base.estimate.length + k) =
        some (JNum.num (projectNextValue
          ((extendSeriesToYear base opts).estimate.take (base.estimate.length + k))))) ∧
    (∀ r d, averageRatio base.supply base.demand = some r → r ≠ 0 →
      (extendSeriesToYear base opts).demand.get? (base.demand.length + k) =
        some (JNum.num d) →
      (extendSeriesToYear base opts).supply.get? (base.supply.length + k) =
        some (JNum.num (max 0 (d * r)))) ∧
    ((averageRatio base.supply base.demand = none ∨
        averageRatio base.supply base.demand = some 0) →
      (extendSeriesToYear base opts).supply.get? (base.supply.length + k) =
        some (JNum.num (projectNextValue
          ((extendSeriesToYear base opts).supply.take (base.supply.length + k))))) := by
  have hkQ : k < (appendedQuarters base opts).length := by
    have := extend_labels_length base opts
    omega
  have hdem : (extendSeriesToYear base opts).demand.get? (base.demand.length + k) =
      some (JNum.num (resolveDemand (takeForecast base.forecast)
        (takeForecast opts.mlForecast)
        (qLabel ((appendedQuarters base opts).getD k default))
        (base.demand ++ (demandExt (takeForecast base.forecast)
          (takeForecast opts.mlForecast) base.demand
          (appendedQuarters base opts)).take k))) := by
    rw [extend_demand]
    rw [List.get?_append_right (by omega)]
    have hsub : base.demand.length + k - base.demand.length = k := by omega
    rw [hsub]
    exact demandExt_get _ _ _ _ k hkQ
  have hest : (extendSeriesToYear base opts).estimate.get? (base.estimate.length + k) =
      some (JNum.num (deriveVal (averageRatio base.estimate base.demand)
        (resolveDemand (takeForecast base.forecast) (takeForecast opts.mlForecast)
          (qLabel ((appendedQuarters base opts).getD k default))
          (base.demand ++ (demandExt (takeForecast base.forecast)
            (takeForecast opts.mlForecast) base.demand
            (appendedQuarters base opts)).take k))
        (base.estimate ++ (estimateExt (takeForecast base.forecast)
          (takeForecast opts.mlForecast) (averageRatio base.estimate base.demand)
          base.demand base.estimate (appendedQuarters base opts)).take k))) := by
    rw [extend_estimate]
    rw [List.get?_append_right (by omega)]
    have hsub : base.estimate.length + k - base.estimate.length = k := by omega
    rw [hsub]
    exact estimateExt_get _ _ _ _ _ _ k hkQ
  have hsup : (extendSeriesToYear base opts).supply.get? (base.supply.length + k) =
      some (JNum.num (deriveVal (averageRatio base.supply base.demand)
        (resolveDemand (takeForecast base.forecast) (takeForecast opts.mlForecast)
          (qLabel ((appendedQuarters base opts).getD k default))
          (base.demand ++ (demandExt (takeForecast base.forecast)
            (takeForecast opts.mlForecast) base.demand
            (appendedQuarters base opts)).take k))
        (base.supply ++ (estimateExt (takeForecast base.forecast)
          (takeForecast opts.mlForecast) (averageRatio base.supply base.demand)
          base.demand base.supply (appendedQuarters base opts)).take k))) := by
    rw [extend_supply]
    rw [List.get?_append_right (by omega)]
    have hsub : base.supply.length + k - base.supply.length = k := by omega
    rw [hsub]
    exact estimateExt_get _ _ _ _ _ _ k hkQ
  have htakee : (extendSeriesToYear base opts).estimate.take (base.estimate.length + k) =
      base.estimate ++ (estimateExt (takeForecast base.forecast)
        (takeForecast opts.mlForecast) (averageRatio base.estimate base.demand)
        base.demand base.estimate (appendedQuarters base opts)).take k := by
    rw [extend_estimate]
    exact List.take_append k
  have htakes : (extendSeriesToYear base opts).supply.take (base.supply.length + k) =
      base.supply ++ (estimateExt (takeForecast base.forecast)
        (takeForecast opts.mlForecast) (averageRatio base.supply base.demand)
        base.demand base.supply (appendedQuarters base opts)).take k := by
    rw [extend_supply]
    exact List.take_append k
  refine ⟨?_, ?_, ?_, ?_⟩
  · intro r d hr hr0 hd
    rw [hdem] at hd
    have hd' : d = resolveDemand (takeForecast base.forecast) (takeForecast opts.mlForecast)
        (qLabel ((appendedQuarters base opts).getD k default))
        (base.demand ++ (demandExt (takeForecast base.forecast)
          (takeForecast opts.mlForecast) base.demand
          (appendedQuarters base opts)).take k) := by
      have := Option.some.inj hd
      exact (JNum.num.inj this).symm
    rw [hest, hr, hd']
    simp only [deriveVal]
    rw [if_neg hr0]
  · intro hr
    rw [hest, htakee]
    rcases hr with hr | hr
    · rw [hr]
      simp only [deriveVal]
    · rw [hr]
      simp [deriveVal]
  · intro r d hr hr0 hd
    rw [hdem] at hd
    have hd' : d = resolveDemand (takeForecast base.forecast) (takeForecast opts.mlForecast)
        (qLabel ((appendedQuarters base opts).getD k default))
        (base.demand ++ (demandExt (takeForecast base.forecast)
          (takeForecast opts.mlForecast) base.demand
          (appendedQuarters base opts)).take k) := by
      have := Option.some.inj hd
      exact (JNum.num.inj this).symm
    rw [hsup, hr, hd']
    simp only [deriveVal]
    rw [if_neg hr0]
  · intro hr
    rw [hsup, htakes]
    rcases hr with hr | hr
    · rw [hr]
      simp only [deriveVal]
    · rw [hr]
      simp [deriveVal]

/-- C7, witness: base estimate `[2]`, demand `[4]` give the defined
non-zero ratio `1/2`; the appended demand is `4`, so the appended
estimate is `max 0 (4 * (1/2)) = 2`. -/
theorem c7_witness :
    (extendSeriesToYear exB7w exO7).estimate.get? (exB7w.estimate.length + 0) =
      some (JNum.num (max 0 (4 * (1 / 2 : ℚ)))) := by
  have hp : parseQuarter "Q1 2024" = some ⟨2024, 1, 8096⟩ := by decide
  have hf : qLabel ⟨2024, 2, 8097⟩ = "Q2 2024" := by decide
  have hfm : (List.filterMap (fun v => match v with | JNum.num q => some q | _ => none)
      [JNum.num 4]) = [4] := rfl
  have hQ : appendedQuarters exB7w exO7 = [⟨2024, 2, 8097⟩] := by
    norm_num [appendedQuarters, hp, maxFutureOf, effTYOf, ceilDiv4, measureQ,
      appendedList, stopFlag, nextQuarter, exB7w, exO7]
  apply (c7_estimate_supply_policy exB7w exO7 0 ?_).1 (1 / 2) 4 ?_ (by norm_num) ?_
  · rw [extend_labels_length, hQ]
    decide
  · norm_num [averageRatio, ratioList, exB7w]
    all_goals intro h
    all_goals simp at h
  · rw [extend_demand, hQ]
    norm_num [demandExt, resolveDemand, mapGet, takeForecast, exB7w, exO7,
      projectNextValue, hfm, hf]
    all_goals decide

/-! ### C8 — confidence-band derivation

The source pushes `Math.max(0, nextDemand - spread)` as the lower
bound, not `nextDemand - spread` as the claim states. -/

/-- C8, counterexample: base CI `[5]/[100]` and demand `[10]` give
`lastSpread = 90`; the appended `nextDemand` is `10`, so the claim's
lower bound would be `10 - 90 = -80`, but the code pushes
`max 0 (10 - 90) = 0`. -/
theorem c8_counterexample :
    lastSpreadOf exB8 = .num 90 ∧
    (extendSeriesToYear exB8 exO8).demand = [.num 10, .num 10] ∧
    (extendSeriesToYear exB8 exO8).ci =
      some ([.num 5, .num 0], [.num 100, .num 100]) ∧
    (0 : ℚ) ≠ 10 - 90 := by
  have hp : parseQuarter "Q1 2024" = some ⟨2024, 1, 8096⟩ := by decide
  have hf : qLabel ⟨2024, 2, 8097⟩ = "Q2 2024" := by decide
  have hfm : (List.filterMap (fun v => match v with | JNum.num q => some q | _ => none)
      [JNum.num 10]) = [10] := rfl
  have hQ : appendedQuarters exB8 exO8 = [⟨2024, 2, 8097⟩] := by
    norm_num [appendedQuarters, hp, maxFutureOf, effTYOf, ceilDiv4, measureQ,
      appendedList, stopFlag, nextQuarter, exB8, exO8]
  have hlsp : lastSpreadOf exB8 = .num 90 := by
    norm_num [lastSpreadOf, exB8, jmax0, jsub]
  refine ⟨hlsp, ?_, ?_, by norm_num⟩
  · rw [extend_demand, hQ]
    norm_num [demandExt, resolveDemand, mapGet, takeForecast, exB8, exO8,
      projectNextValue, hfm, hf]
    all_goals decide
  · rw [extend_ci_some exB8 exO8 [.num 5] [.num 100] (by decide), hQ]
    norm_num [bandExt, bandStep, resolveDemand, mapGet, takeForecast, ciMap,
      exB8, exO8, projectNextValue, hfm, hf, lastSpreadOf, jsTruthy, jmax0, jsub, jadd]
    all_goals decide

/-- C8, amended: when the base series carries a CI band, each appended
quarter's band is the forecast CI map entry if present, else the ML CI
map entry; when neither exists the appended band has upper bound
`nextDemand + spread` and lower bound `max(0, nextDemand - spread)`
(clamped, unlike the claim's `nextDemand - spread`), where `spread` is
`lastSpread` when truthy and `8%` of `|nextDemand|` otherwise.  (The
source's `0/0` push for a non-finite `nextDemand` is unreachable in the
exact model, where the resolved demand is always a rational.) -/
theorem c8_band_policy (base : SeriesInput) (opts : ExtOpts) (lo up : List JNum) (k : ℕ)
    (hci : base.ci = some (lo, up))
    (hk : base.labels.length + k < (extendSeriesToYear base opts).labels.length) :
    ∃ lo2 up2, (extendSeriesToYear base opts).ci = some (lo2, up2) ∧
      (∀ en, mapGet (ciMap base.forecast)
          ((extendSeriesToYear base opts).labels.getD (base.labels.length + k) "") = some en →
        lo2.get? (lo.length + k) = some (.num en.1) ∧
        up2.get? (up.length + k) = some (.num en.2)) ∧
      (mapGet (ciMap base.forecast)
          ((extendSeriesToYear base opts).labels.getD (base.labels.length + k) "") = none →
        ∀ en, mapGet (ciMap opts.mlForecast)
            ((extendSeriesToYear base opts).labels.getD (base.labels.length + k) "") = some en →
          lo2.get? (lo.length + k) = some (.num en.1) ∧
          up2.get? (up.length + k) = some (.num en.2)) ∧
      (mapGet (ciMap base.forecast)
          ((extendSeriesToYear base opts).labels.getD (base.labels.length + k) "") = none →
        mapGet (ciMap opts.mlForecast)
          ((extendSeriesToYear base opts).labels.getD (base.labels.length + k) "") = none →
        ∀ d, (extendSeriesToYear base opts).demand.get? (base.demand.length + k) =
            some (JNum.num d) →
          lo2.get? (lo.length + k) = some (jmax0 (jsub (JNum.num d)
            (if jsTruthy (lastSpreadOf base) then lastSpreadOf base
             else JNum.num (|d| * (8 / 100))))) ∧
          up2.get? (up.length + k) = some (jadd (JNum.num d)
            (if jsTruthy (lastSpreadOf base) then lastSpreadOf base
             else JNum.num (|d| * (8 / 100))))) := by
  have hkQ : k < (appendedQuarters base opts).length := by
    have := extend_labels_length base opts
    omega
  have hlab := extend_labels_getD base opts k hkQ
  have hdem : (extendSeriesToYear base opts).demand.get? (base.demand.length + k) =
      some (JNum.num (resolveDemand (takeForecast base.forecast)
        (takeForecast opts.mlForecast)
        (qLabel ((appendedQuarters base opts).getD k default))
        (base.demand ++ (demandExt (takeForecast base.forecast)
          (takeForecast opts.mlForecast) base.demand
          (appendedQuarters base opts)).take k))) := by
    rw [extend_demand]
    rw [List.get?_append_right (by omega)]
    have hsub : base.demand.length + k - base.demand.length = k := by omega
    rw [hsub]
    exact demandExt_get _ _ _ _ k hkQ
  have hband := bandExt_get (takeForecast base.forecast) (takeForecast opts.mlForecast)
    (ciMap base.forecast) (ciMap opts.mlForecast) (lastSpreadOf base)
    (appendedQuarters base opts) base.demand k hkQ
  have hblen := bandExt_length (takeForecast base.forecast) (takeForecast opts.mlForecast)
    (ciMap base.forecast) (ciMap opts.mlForecast) (lastSpreadOf base)
    (appendedQuarters base opts) base.demand
  refine ⟨_, _, extend_ci_some base opts lo up hci, ?_, ?_, ?_⟩
  · intro en hen
    rw [hlab] at hen
    constructor
    · rw [List.get?_append_right (by omega)]
      have hsub : lo.length + k - lo.length = k := by omega
      rw [hsub, List.get?_map, hband]
      simp only [Option.map_some']
      unfold bandStep
      rw [hen]
    · rw [List.get?_append_right (by omega)]
      have hsub : up.length + k - up.length = k := by omega
      rw [hsub, List.get?_map, hband]
      simp only [Option.map_some']
      unfold bandStep
      rw [hen]
  · intro hfn en hen
    rw [hlab] at hfn hen
    constructor
    · rw [List.get?_append_right (by omega)]
      have hsub : lo.length + k - lo.length = k := by omega
      rw [hsub, List.get?_map, hband]
      simp only [Option.map_some']
      unfold bandStep
      rw [hfn, hen]
    · rw [List.get?_append_right (by omega)]
      have hsub : up.length + k - up.length = k := by omega
      rw [hsub, List.get?_map, hband]
      simp only [Option.map_some']
      unfold bandStep
      rw [hfn, hen]
  · intro hfn hmn d hd
    rw [hlab] at hfn hmn
    rw [hdem] at hd
    have hd' : d = resolveDemand (takeForecast base.forecast) (takeForecast opts.mlForecast)
        (qLabel ((appendedQuarters base opts).getD k default))
        (base.demand ++ (demandExt (takeForecast base.forecast)
          (takeForecast opts.mlForecast) base.demand
          (appendedQuarters base opts)).take k) := by
      have := Option.some.inj hd
      exact (JNum.num.inj this).symm
    constructor
    · rw [List.get?_append_right (by omega)]
      have hsub : lo.length + k - lo.length = k := by omega
      rw [hsub, List.get?_map, hband]
      simp only [Option.map_some']
      unfold bandStep
      rw [hfn, hmn, hd']
    · rw [List.get?_append_right (by omega)]
      have hsub : up.length + k - up.length = k := by omega
      rw [hsub, List.get?_map, hband]
      simp only [Option.map_some']
      unfold bandStep
      rw [hfn, hmn, hd']

/-- C8, witness: for the base with CI `[5]/[100]`, no forecast CI maps
cover the appended label, so the appended band is symmetric around the
appended demand value 10 with the clamped lower bound. -/
theorem c8_witness :
    ∃ lo2 up2, (extendSeriesToYear exB8 exO8).ci = some (lo2, up2) ∧
      lo2.get? 1 = some (jmax0 (jsub (JNum.num 10)
        (if jsTruthy (lastSpreadOf exB8) then lastSpreadOf exB8
         else JNum.num (|(10 : ℚ)| * (8 / 100))))) ∧
      up2.get? 1 = some (jadd (JNum.num 10)
        (if jsTruthy (lastSpreadOf exB8) then lastSpreadOf exB8
         else JNum.num (|(10 : ℚ)| * (8 / 100)))) := by
  have hp : parseQuarter "Q1 2024" = some ⟨2024, 1, 8096⟩ := by decide
  have hf : qLabel ⟨2024, 2, 8097⟩ = "Q2 2024" := by decide
  have hfm : (List.filterMap (fun v => match v with | JNum.num q => some q | _ => none)
      [JNum.num 10]) = [10] := rfl
  have hQ : appendedQuarters exB8 exO8 = [⟨2024, 2, 8097⟩] := by
    norm_num [appendedQuarters, hp, maxFutureOf, effTYOf, ceilDiv4, measureQ,
      appendedList, stopFlag, nextQuarter, exB8, exO8]
  have hk : exB8.labels.length + 0 < (extendSeriesToYear exB8 exO8).labels.length := by
    rw [extend_labels_length, hQ]
    decide
  obtain ⟨lo2, up2, hci, h1, h2, h3⟩ :=
    c8_band_policy exB8 exO8 [.num 5] [.num 100] 0 (by decide) hk
  obtain ⟨hl, hu⟩ := h3 (by simp [mapGet, ciMap, exB8]) (by simp [mapGet, ciMap, exO8]) 10
    (by rw [extend_demand, hQ]
        norm_num [demandExt, resolveDemand, mapGet, takeForecast, exB8, exO8,
          projectNextValue, hfm, hf]
        all_goals decide)
  exact ⟨lo2, up2, hci, hl, hu⟩

/-! ### C10 — length alignment and prefix preservation -/

/-- C10: when the base arrays are index-aligned (all equal in length to
`labels`, including a CI band when present), the output of
`extendSeriesToYear` keeps all tracked arrays equal in length, and each
output array has the corresponding base array as an unchanged prefix —
the loop appends exactly one element to every tracked array per
appended quarter. -/
theorem c10_alignment (base : SeriesInput) (opts : ExtOpts)
    (h1 : base.estimate.length = base.labels.length)
    (h2 : base.demand.length = base.labels.length)
    (h3 : base.supply.length = base.labels.length) :
    (extendSeriesToYear base opts).estimate.length =
      (extendSeriesToYear base opts).labels.length ∧
    (extendSeriesToYear base opts).demand.length =
      (extendSeriesToYear base opts).labels.length ∧
    (extendSeriesToYear base opts).supply.length =
      (extendSeriesToYear base opts).labels.length ∧
    (extendSeriesToYear base opts).labels.take base.labels.length = base.labels ∧
    (extendSeriesToYear base opts).estimate.take base.labels.length = base.estimate ∧
    (extendSeriesToYear base opts).demand.take base.labels.length = base.demand ∧
    (extendSeriesToYear base opts).supply.take base.labels.length = base.supply ∧
    (∀ lo up, base.ci = some (lo, up) → lo.length = base.labels.length →
      up.length = base.labels.length →
      ∃ lo2 up2, (extendSeriesToYear base opts).ci = some (lo2, up2) ∧
        lo2.length = (extendSeriesToYear base opts).labels.length ∧
        up2.length = (extendSeriesToYear base opts).labels.length ∧
        lo2.take base.labels.length = lo ∧ up2.take base.labels.length = up) ∧
    (base.ci = none → (extendSeriesToYear base opts).ci = none) := by
  have hL := extend_labels base opts
  have hE := extend_estimate base opts
  have hD := extend_demand base opts
  have hS := extend_supply base opts
  have hdl := demandExt_length (takeForecast base.forecast) (takeForecast opts.mlForecast)
    (appendedQuarters base opts) base.demand
  have hel := estimateExt_length (takeForecast base.forecast) (takeForecast opts.mlForecast)
    (averageRatio base.estimate base.demand) (appendedQuarters base opts)
    base.demand base.estimate
  have hsl := estimateExt_length (takeForecast base.forecast) (takeForecast opts.mlForecast)
    (averageRatio base.supply base.demand) (appendedQuarters base opts)
    base.demand base.supply
  refine ⟨?_, ?_, ?_, ?_, ?_, ?_, ?_, ?_, extend_ci_none base opts⟩
  · rw [hE, hL]; simp [hel, h1]
  · rw [hD, hL]; simp [hdl, h2]
  · rw [hS, hL]; simp [hsl, h3]
  · rw [hL, List.take_left]
  · rw [hE, ← h1, List.take_left]
  · rw [hD, ← h2, List.take_left]
  · rw [hS, ← h3, List.take_left]
  · intro lo up hci hlo hup
    have hbl := bandExt_length (takeForecast base.forecast) (takeForecast opts.mlForecast)
      (ciMap base.forecast) (ciMap opts.mlForecast) (lastSpreadOf base)
      (appendedQuarters base opts) base.demand
    refine ⟨_, _, extend_ci_some base opts lo up hci, ?_, ?_, ?_, ?_⟩
    · rw [hL]; simp [hbl, hlo]
    · rw [hL]; simp [hbl, hup]
    · rw [← hlo, List.take_left]
    · rw [← hup, List.take_left]

/-- C10, witness: the aligned base `exB8` (one quarter, CI present)
stays aligned after extension. -/
theorem c10_witness :
    (extendSeriesToYear exB8 exO8).estimate.length =
      (extendSeriesToYear exB8 exO8).labels.length ∧
    (extendSeriesToYear exB8 exO8).labels.take exB8.labels.length = exB8.labels :=
  ⟨(c10_alignment exB8 exO8 (by decide) (by decide) (by decide)).1,
   (c10_alignment exB8 exO8 (by decide) (by decide) (by decide)).2.2.2.1⟩

/-! ### C2 — label growth and quarter-key monotonicity -/

/-- Within the four-digit year range, every appended quarter's
canonical label parses back to exactly that quarter. -/
theorem appended_parse (base : SeriesInput) (opts : ExtOpts)
    (lastLab : String) (anchor : Quarter)
    (hl : base.labels.getLast? = some lastLab)
    (hp : parseQuarter lastLab = some anchor)
    (hy : 1000 ≤ anchor.year)
    (he : effTYOf anchor (opts.targetYear.getD 2035) (maxFutureOf opts.maxFutureQuarters) ≤ 9999)
    (k : ℕ) (hk : k < (appendedQuarters base opts).length) :
    parseQuarter (qLabel ((appendedQuarters base opts).getD k default)) =
      some ((appendedQuarters base opts).getD k default) ∧
    1 ≤ ((appendedQuarters base opts).getD k default).quarter ∧
    ((appendedQuarters base opts).getD k default).quarter ≤ 4 ∧
    ((appendedQuarters base opts).getD k default).key =
      4 * ((appendedQuarters base opts).getD k default).year +
        ((appendedQuarters base opts).getD k default).quarter - 1 := by
  obtain ⟨hqa1, hqa2, hya1, hya2, hka⟩ := parseQuarter_bounds lastLab anchor hp
  have hQeq := appendedQuarters_eq base opts lastLab anchor hl hp
  set rk := (appendedQuarters base opts).getD k default with hrk
  have hmem : rk ∈ appendedQuarters base opts := by
    rw [hrk, List.getD_eq_getElem _ _ hk]
    exact List.getElem_mem hk
  rw [hQeq] at hmem
  obtain ⟨hqb, hyge, hyle, hkey⟩ := appendedList_mem _ _ _ _ _ _ hmem ⟨hqa1, hqa2⟩
  have hy1 : 1000 ≤ rk.year := le_trans hy hyge
  have hy2 : rk.year ≤ 9999 := by
    have hfl : rk.year ≤ ⌊effTYOf anchor (opts.targetYear.getD 2035)
        (maxFutureOf opts.maxFutureQuarters)⌋ := Int.le_floor.mpr hyle
    have h9 : ⌊effTYOf anchor (opts.targetYear.getD 2035)
        (maxFutureOf opts.maxFutureQuarters)⌋ ≤ (9999 : ℤ) := by
      have := Int.floor_le_floor he
      simpa using this
    omega
  refine ⟨?_, hqb.1, hqb.2, hkey⟩
  unfold qLabel
  rw [parseQuarter_formatQuarter rk.year rk.quarter hy1 hy2 hqb.1 hqb.2]
  congr 1
  cases hrk2 : rk with
  | mk y q key =>
    rw [hrk2] at hkey
    simp at hkey ⊢
    omega

/-- C2, counterexample: with the parseable anchor `"Q1 0999"`
(year 999), the single appended label is `"Q2 999"`, whose three-digit
year fails `parseQuarter` — so not every appended label parses to a
quarter. -/
theorem c2_counterexample :
    parseQuarter "Q1 0999" = some ⟨999, 1, 3996⟩ ∧
    (extendSeriesToYear exB2 exO2).labels = ["Q1 0999", "Q2 999"] ∧
    parseQuarter "Q2 999" = none := by
  have hp : parseQuarter "Q1 0999" = some ⟨999, 1, 3996⟩ := by decide
  have hf : qLabel ⟨999, 2, 3997⟩ = "Q2 999" := by decide
  have hQ : appendedQuarters exB2 exO2 = [⟨999, 2, 3997⟩] := by
    norm_num [appendedQuarters, hp, maxFutureOf, effTYOf, ceilDiv4, measureQ,
      appendedList, stopFlag, nextQuarter, exB2, exO2]
  refine ⟨hp, ?_, by decide⟩
  rw [extend_labels, hQ]
  simp [exB2, hf]

/-- C2, amended: the labels array returned by `extendSeriesToYear` is
always at least as long as `base.labels`; and whenever the anchor's
year is at least 1000 and the effective target year at most 9999 (so
that every appended year has four digits), every appended label parses
to a quarter whose key strictly exceeds the key of the label
immediately before it (the anchor for the first appended label). -/
theorem c2_monotone_labels (base : SeriesInput) (opts : ExtOpts) :
    base.labels.length ≤ (extendSeriesToYear base opts).labels.length ∧
    (∀ lastLab anchor k,
      base.labels.getLast? = some lastLab →
      parseQuarter lastLab = some anchor →
      1000 ≤ anchor.year →
      effTYOf anchor (opts.targetYear.getD 2035)
        (maxFutureOf opts.maxFutureQuarters) ≤ 9999 →
      base.labels.length + k < (extendSeriesToYear base opts).labels.length →
      ∃ r s, parseQuarter ((extendSeriesToYear base opts).labels.getD
          (base.labels.length + k) "") = some r ∧
        parseQuarter ((extendSeriesToYear base opts).labels.getD
          (base.labels.length + k - 1) "") = some s ∧
        s.key < r.key) := by
  constructor
  · have := extend_labels_length base opts
    omega
  · intro lastLab anchor k hl hp hy he hk
    have hkQ : k < (appendedQuarters base opts).length := by
      have := extend_labels_length base opts
      omega
    obtain ⟨hqa1, hqa2, hya1, hya2, hka⟩ := parseQuarter_bounds lastLab anchor hp
    have hQeq := appendedQuarters_eq base opts lastLab anchor hl hp
    have hlabk := extend_labels_getD base opts k hkQ
    obtain ⟨hpk, hqk1, hqk2, hkk⟩ :=
      appended_parse base opts lastLab anchor hl hp hy he k hkQ
    cases k with
    | zero =>
      have hne : base.labels ≠ [] := by
        intro hnil
        rw [hnil] at hl
        simp at hl
      have hlen1 : 1 ≤ base.labels.length := List.length_pos.mpr hne
      have hidx : base.labels.length + 0 - 1 = base.labels.length - 1 := by omega
      have hprev : (extendSeriesToYear base opts).labels.getD
          (base.labels.length + 0 - 1) "" = lastLab := by
        rw [extend_labels, hidx]
        have hlt : base.labels.length - 1 < base.labels.length := by omega
        rw [List.getD_eq_getElem _ _ (by simp; omega)]
        rw [List.getElem_append_left hlt]
        rw [List.getLast?_eq_getElem?] at hl
        rw [List.getElem?_eq_getElem hlt] at hl
        exact Option.some.inj hl
      have hhead : (appendedQuarters base opts).getD 0 default = nextQuarter anchor := by
        rw [hQeq]
        rcases appendedList_cases (effTYOf anchor (opts.targetYear.getD 2035)
            (maxFutureOf opts.maxFutureQuarters)) (maxFutureOf opts.maxFutureQuarters)
            (measureQ (effTYOf anchor (opts.targetYear.getD 2035)
              (maxFutureOf opts.maxFutureQuarters)) anchor) anchor 0 with
          hnil | ⟨f, hf, _, _, _, heq⟩
        · rw [hQeq, hnil] at hkQ
          simp at hkQ
        · rw [heq]
          simp
      refine ⟨(appendedQuarters base opts).getD 0 default, anchor, ?_, ?_, ?_⟩
      · rw [hlabk]
        exact hpk
      · rw [hprev]
        exact hp
      · rw [hhead]
        rw [hhead] at hkk
        have hsucc := nextQuarter_key_succ anchor ⟨hqa1, hqa2⟩ (by omega)
        omega
    | succ k' =>
      have hk'Q : k' < (appendedQuarters base opts).length := by omega
      have hlabk' := extend_labels_getD base opts k' hk'Q
      obtain ⟨hpk', hqk1', hqk2', hkk'⟩ :=
        appended_parse base opts lastLab anchor hl hp hy he k' hk'Q
      have hprev : base.labels.length + (k' + 1) - 1 = base.labels.length + k' := by omega
      refine ⟨(appendedQuarters base opts).getD (k' + 1) default,
        (appendedQuarters base opts).getD k' default, ?_, ?_, ?_⟩
      · rw [hlabk]
        exact hpk
      · rw [hprev, hlabk']
        exact hpk'
      · have hchain : (appendedQuarters base opts).getD (k' + 1) default =
            nextQuarter ((appendedQuarters base opts).getD k' default) := by
          rw [hQeq]
          rw [hQeq] at hk'Q hkQ
          exact appendedList_chain _ _ _ _ _ k' (by omega)
        have hsucc := nextQuarter_key_succ ((appendedQuarters base opts).getD k' default)
          ⟨hqk1', hqk2'⟩ (by omega)
        rw [hchain]
        omega

/-- C2, witness: anchor Q1 2024 with one appended quarter: the appended
label "Q2 2024" parses and its key exceeds the anchor's. -/
theorem c2_witness :
    ∃ r s, parseQuarter ((extendSeriesToYear exB7w exO7).labels.getD
        (exB7w.labels.length + 0) "") = some r ∧
      parseQuarter ((extendSeriesToYear exB7w exO7).labels.getD
        (exB7w.labels.length + 0 - 1) "") = some s ∧
      s.key < r.key := by
  have hp : parseQuarter "Q1 2024" = some ⟨2024, 1, 8096⟩ := by decide
  have hQ : appendedQuarters exB7w exO7 = [⟨2024, 2, 8097⟩] := by
    norm_num [appendedQuarters, hp, maxFutureOf, effTYOf, ceilDiv4, measureQ,
      appendedList, stopFlag, nextQuarter, exB7w, exO7]
  exact (c2_monotone_labels exB7w exO7).2 "Q1 2024" ⟨2024, 1, 8096⟩ 0 (by decide) hp
    (by decide) (by norm_num [effTYOf, maxFutureOf, ceilDiv4, exO7])
    (by rw [extend_labels_length, hQ]; decide)

/-! ### C3 — idempotence of the extension -/

theorem appendedQuarters_congr (b1 b2 : SeriesInput) (opts : ExtOpts)
    (h : b1.labels = b2.labels) :
    appendedQuarters b1 opts = appendedQuarters b2 opts := by
  unfold appendedQuarters
  rw [h]

theorem extend_of_nil (base : SeriesInput) (opts : ExtOpts)
    (h : appendedQuarters base opts = []) :
    extendSeriesToYear base opts =
      ⟨base.labels, base.estimate, base.demand, base.supply, base.ci⟩ := by
  rw [extendSeriesToYear_eq_foldl, h]
  rfl

/-- C3, counterexample: with `maxFutureQuarters = 2` and target year
2035, the first call on an anchor Q1 2020 appends Q2 and Q3 2020 (the
per-call ceiling is `2020 + ceil(2/4) = 2021`), and a second call on
that output appends two further quarters (its ceiling is recomputed
from the new anchor), so the extension is not idempotent. -/
theorem c3_counterexample :
    (extendSeriesToYear exB3 exO3).labels = ["Q1 2020", "Q2 2020", "Q3 2020"] ∧
    (extendSeriesToYear (seriesToInput (extendSeriesToYear exB3 exO3)) exO3).labels =
      ["Q1 2020", "Q2 2020", "Q3 2020", "Q4 2020", "Q1 2021"] := by
  have hp : parseQuarter "Q1 2020" = some ⟨2020, 1, 8080⟩ := by decide
  have hp3 : parseQuarter "Q3 2020" = some ⟨2020, 3, 8082⟩ := by decide
  have hf2 : qLabel ⟨2020, 2, 8081⟩ = "Q2 2020" := by decide
  have hf3 : qLabel ⟨2020, 3, 8082⟩ = "Q3 2020" := by decide
  have hf4 : qLabel ⟨2020, 4, 8083⟩ = "Q4 2020" := by decide
  have hf5 : qLabel ⟨2021, 1, 8084⟩ = "Q1 2021" := by decide
  have htn : Int.toNat 2 = 2 := rfl
  have hQ1 : appendedQuarters exB3 exO3 = [⟨2020, 2, 8081⟩, ⟨2020, 3, 8082⟩] := by
    norm_num [appendedQuarters, hp, maxFutureOf, effTYOf, ceilDiv4, measureQ,
      appendedList, stopFlag, nextQuarter, exB3, exO3, htn]
  have hlab1 : (extendSeriesToYear exB3 exO3).labels =
      ["Q1 2020", "Q2 2020", "Q3 2020"] := by
    rw [extend_labels, hQ1]
    simp [exB3, hf2, hf3]
  refine ⟨hlab1, ?_⟩
  have hQ2 : appendedQuarters (seriesToInput (extendSeriesToYear exB3 exO3)) exO3 =
      [⟨2020, 4, 8083⟩, ⟨2021, 1, 8084⟩] := by
    unfold appendedQuarters
    rw [show (seriesToInput (extendSeriesToYear exB3 exO3)).labels =
      ["Q1 2020", "Q2 2020", "Q3 2020"] from hlab1]
    norm_num [hp3, maxFutureOf, effTYOf, ceilDiv4, measureQ,
      appendedList, stopFlag, nextQuarter, exO3, htn]
  rw [extend_labels, hQ2]
  rw [show (seriesToInput (extendSeriesToYear exB3 exO3)).labels =
    ["Q1 2020", "Q2 2020", "Q3 2020"] from hlab1]
  simp [hf4, hf5]

/-- C3, amended: with unbounded `maxFutureQuarters` and a target year
between 1000 and 9999, calling `extendSeriesToYear` a second time on
the output of a first call, with the same options, appends no further
quarters and returns the first output unchanged. -/
theorem c3_idempotent_unbounded (base : SeriesInput) (opts : ExtOpts)
    (hmf : maxFutureOf opts.maxFutureQuarters = none)
    (hty1 : 1000 ≤ opts.targetYear.getD 2035)
    (hty2 : opts.targetYear.getD 2035 ≤ 9999) :
    extendSeriesToYear (seriesToInput (extendSeriesToYear base opts)) opts =
      extendSeriesToYear base opts := by
  by_cases hQ : appendedQuarters base opts = []
  · have hlab : (extendSeriesToYear base opts).labels = base.labels := by
      rw [extend_labels, hQ]
      simp
    have hnil2 : appendedQuarters (seriesToInput (extendSeriesToYear base opts)) opts = [] := by
      rw [appendedQuarters_congr (seriesToInput (extendSeriesToYear base opts)) base opts hlab]
      exact hQ
    rw [extend_of_nil _ _ hnil2, extend_of_nil _ _ hQ]
    rfl
  · cases hl : base.labels.getLast? with
    | none =>
      refine absurd ?_ hQ
      unfold appendedQuarters
      rw [hl]
    | some lastLab =>
      cases hp : parseQuarter lastLab with
      | none =>
        refine absurd ?_ hQ
        unfold appendedQuarters
        simp only [hl, hp]
      | some anchor =>
        obtain ⟨hqa1, hqa2, hya1, hya2, hka⟩ := parseQuarter_bounds lastLab anchor hp
        have hQeq := appendedQuarters_eq base opts lastLab anchor hl hp
        rw [hmf] at hQeq
        have hety : ∀ p : Quarter, effTYOf p (opts.targetYear.getD 2035) none =
            opts.targetYear.getD 2035 := by
          intro p
          simp [effTYOf]
        rw [hety] at hQeq
        have hQne : appendedList (opts.targetYear.getD 2035) none
            (measureQ (opts.targetYear.getD 2035) anchor) anchor 0 ≠ [] := by
          rw [← hQeq]
          exact hQ
        obtain ⟨r, hrl, hry, hrq⟩ := appendedList_getLast (opts.targetYear.getD 2035)
          (measureQ (opts.targetYear.getD 2035) anchor) anchor 0 ⟨hqa1, hqa2⟩ le_rfl hQne
        have hlast2 : (extendSeriesToYear base opts).labels.getLast? = some (qLabel r) := by
          rw [extend_labels, List.getLast?_append, hQeq, List.getLast?_map, hrl]
          rfl
        have hfl1 : (1000 : ℤ) ≤ ⌊opts.targetYear.getD 2035⌋ := Int.le_floor.mpr (by
          exact_mod_cast hty1)
        have hfl2 : ⌊opts.targetYear.getD 2035⌋ ≤ (9999 : ℤ) := by
          have := Int.floor_le_floor hty2
          simpa using this
        have hpr : parseQuarter (qLabel r) =
            some ⟨⌊opts.targetYear.getD 2035⌋, 4,
              ⌊opts.targetYear.getD 2035⌋ * 4 + (4 - 1)⟩ := by
          unfold qLabel
          rw [hry, hrq]
          exact parseQuarter_formatQuarter _ _ hfl1 hfl2 (by omega) (by omega)
        have hQeq2 := appendedQuarters_eq (seriesToInput (extendSeriesToYear base opts)) opts
          (qLabel r) ⟨⌊opts.targetYear.getD 2035⌋, 4,
            ⌊opts.targetYear.getD 2035⌋ * 4 + (4 - 1)⟩ hlast2 hpr
        rw [hmf, hety] at hQeq2
        have hnil2 : appendedQuarters (seriesToInput (extendSeriesToYear base opts)) opts
            = [] := by
          rw [hQeq2]
          apply (appendedList_nil_iff (opts.targetYear.getD 2035) _ _ 0
            ⟨by norm_num, by norm_num⟩ le_rfl).mpr
          have hnext : (nextQuarter ⟨⌊opts.targetYear.getD 2035⌋, 4,
              ⌊opts.targetYear.getD 2035⌋ * 4 + (4 - 1)⟩).year =
              ⌊opts.targetYear.getD 2035⌋ + 1 := by
            simp [nextQuarter]
          rw [hnext]
          push_cast
          exact not_le.mpr (Int.lt_floor_add_one (opts.targetYear.getD 2035))
        rw [extend_of_nil _ _ hnil2]
        rfl

/-- C3, witness: anchor Q4 2024, target year 2025, no quarter cap: the
first call appends Q1–Q4 2025 and the second call appends nothing. -/
theorem c3_witness :
    extendSeriesToYear (seriesToInput (extendSeriesToYear exB3w exO3w)) exO3w =
      extendSeriesToYear exB3w exO3w :=
  c3_idempotent_unbounded exB3w exO3w (by decide) (by norm_num [exO3w])
    (by norm_num [exO3w])

/-! ### C9 — calendar-year aggregation -/

theorem insertStr_perm (x : String) : ∀ l : List String, (insertStr x l).Perm (x :: l) := by
  intro l
  induction l with
  | nil => simp [insertStr]
  | cons y ys ih =>
    unfold insertStr
    by_cases h : strLe x y = true
    · rw [if_pos h]
    · rw [if_neg h]
      exact (ih.cons y).trans (List.Perm.swap x y ys)

theorem sortStr_perm : ∀ l : List String, (sortStr l).Perm l := by
  intro l
  induction l with
  | nil => simp [sortStr]
  | cons x xs ih =>
    unfold sortStr
    exact (insertStr_perm x (sortStr xs)).trans (List.Perm.cons x ih)

theorem yearKeys_nodup (labels : List String) : (yearKeys labels).Nodup :=
  (sortStr_perm _).nodup_iff.mpr (List.nodup_dedup _)

theorem yearKeys_mem (labels : List String) (y : String) :
    y ∈ yearKeys labels ↔ y ∈ labels.map yearOf := by
  unfold yearKeys
  rw [(sortStr_perm _).mem_iff, List.mem_dedup]

theorem bucketAdd_go (labels : List String) (vals : List JNum) (y : String)
    (hfin : ∀ i : ℕ, ((vals.get? i).getD (JNum.num 0)).isFinite = true) :
    ∀ (idx : List ℕ) (a : ℚ),
      idx.foldl (fun acc i => if yearOf (labels.getD i "") = y then
        jadd acc ((vals.get? i).getD (.num 0)) else acc) (.num a) =
      .num (a + (idx.map fun i => if yearOf (labels.getD i "") = y then
        ((vals.get? i).getD (.num 0)).toRat else 0).sum) := by
  intro idx
  induction idx with
  | nil => intro a; simp
  | cons i t ih =>
    intro a
    simp only [List.foldl_cons, List.map_cons, List.sum_cons]
    by_cases hy : yearOf (labels.getD i "") = y
    · rw [if_pos hy, if_pos hy]
      obtain ⟨q, hq⟩ : ∃ q, (vals.get? i).getD (JNum.num 0) = JNum.num q := by
        cases hvi : (vals.get? i).getD (JNum.num 0) with
        | num q => exact ⟨q, rfl⟩
        | nan => have := hfin i; rw [hvi] at this; simp [JNum.isFinite] at this
        | inf => have := hfin i; rw [hvi] at this; simp [JNum.isFinite] at this
        | ninf => have := hfin i; rw [hvi] at this; simp [JNum.isFinite] at this
      rw [hq]
      show List.foldl _ (JNum.num (a + q)) t = _
      rw [ih (a + q)]
      simp only [JNum.toRat]
      congr 1
      ring
    · rw [if_neg hy, if_neg hy, ih]
      simp

theorem bucketAdd_eq (labels : List String) (vals : List JNum) (y : String)
    (hfin : ∀ v ∈ vals, v.isFinite = true) :
    bucketAdd labels vals y = .num (((List.range labels.length).map fun i =>
      if yearOf (labels.getD i "") = y then
        ((vals.get? i).getD (.num 0)).toRat else 0).sum) := by
  have hfin' : ∀ i : ℕ, ((vals.get? i).getD (JNum.num 0)).isFinite = true := by
    intro i
    cases hv : vals.get? i with
    | none => simp [JNum.isFinite]
    | some v =>
      simp only [Option.getD_some]
      exact hfin v (List.get?_mem hv)
  unfold bucketAdd
  rw [bucketAdd_go labels vals y hfin' (List.range labels.length) 0]
  simp

theorem listsum_range_eq_finset (f : ℕ → ℚ) :
    ∀ n : ℕ, ((List.range n).map f).sum = ∑ i ∈ Finset.range n, f i := by
  intro n
  induction n with
  | zero => simp
  | succ m ih =>
    rw [List.range_succ, Finset.sum_range_succ]
    simp [ih]

theorem range_sum_vals : ∀ (vals : List JNum),
    ((List.range vals.length).map fun i => ((vals.get? i).getD (.num 0)).toRat).sum =
      (vals.map JNum.toRat).sum := by
  intro vals
  induction vals with
  | nil => simp
  | cons v t ih =>
    rw [show (v :: t).length = t.length + 1 from rfl, List.range_succ_eq_map]
    rw [List.map_cons, List.sum_cons, List.map_map]
    have h2 : List.map ((fun i => (((v :: t).get? i).getD (JNum.num 0)).toRat) ∘ Nat.succ)
        (List.range t.length)
        = List.map (fun i => ((t.get? i).getD (JNum.num 0)).toRat) (List.range t.length) :=
      List.map_congr_left (fun i _ => rfl)
    rw [h2, ih, List.map_cons, List.sum_cons]
    rfl

/-- Conservation of the unrounded bucket sums: summing every year
bucket recovers the sum over all label positions. -/
theorem bucket_total (labels : List String) (vals : List JNum)
    (hfin : ∀ v ∈ vals, v.isFinite = true) :
    ((yearKeys labels).map fun y => (bucketAdd labels vals y).toRat).sum =
      ((List.range labels.length).map fun i => ((vals.get? i).getD (.num 0)).toRat).sum := by
  have h1 : ((yearKeys labels).map fun y => (bucketAdd labels vals y).toRat).sum =
      ((yearKeys labels).map fun y => ∑ i ∈ Finset.range labels.length,
        if yearOf (labels.getD i "") = y then ((vals.get? i).getD (.num 0)).toRat else 0).sum := by
    apply congrArg
    apply List.map_congr_left
    intro y _
    rw [bucketAdd_eq labels vals y hfin]
    simp only [JNum.toRat]
    exact listsum_range_eq_finset _ _
  rw [h1]
  rw [← List.sum_toFinset _ (yearKeys_nodup labels)]
  have h2 : ∀ y ∈ (yearKeys labels).toFinset,
      (∑ i ∈ Finset.range labels.length,
        if yearOf (labels.getD i "") = y then ((vals.get? i).getD (.num 0)).toRat else 0) =
      ∑ i ∈ (Finset.range labels.length).filter
          (fun i => yearOf (labels.getD i "") = y),
        ((vals.get? i).getD (.num 0)).toRat := by
    intro y _
    rw [Finset.sum_filter]
  rw [Finset.sum_congr rfl h2]
  rw [Finset.sum_fiberwise_of_maps_to (fun i hi => ?_)
    (fun i => ((vals.get? i).getD (.num 0)).toRat)]
  · rw [listsum_range_eq_finset]
  · rw [List.mem_toFinset, yearKeys_mem]
    apply List.mem_map.mpr
    refine ⟨labels.getD i "", ?_, rfl⟩
    rw [List.getD_eq_getElem _ _ (by simpa using hi)]
    exact List.getElem_mem _

/-- C9, counterexample: the two-year series with demand
`[1/2000, 0]` has quarterly total `1/2000`, but the 2024 bucket sum
`1/2000` rounds to `1/1000`, so the total over the produced year
buckets is `1/1000 ≠ 1/2000` — rounding breaks exact conservation. -/
theorem c9_counterexample :
    (aggregateByYear exS9).labels = ["2024", "2025"] ∧
    (aggregateByYear exS9).demand = [.num (1 / 1000), .num 0] ∧
    ((aggregateByYear exS9).demand.map JNum.toRat).sum ≠
      (exS9.demand.map JNum.toRat).sum := by
  have hy1 : yearOf "Q4 2024" = "2024" := by decide
  have hy2 : yearOf "Q1 2025" = "2025" := by decide
  have hys : yearKeys exS9.labels = ["2024", "2025"] := by decide
  have hrange : List.range exS9.labels.length = [0, 1] := by decide
  have hne1 : ("2024" : String) ≠ "2025" := by decide
  have hne2 : ("2025" : String) ≠ "2024" := by decide
  have hb24 : bucketAdd exS9.labels exS9.demand "2024" = .num (1 / 2000) := by
    unfold bucketAdd
    rw [hrange]
    norm_num [exS9, hy1, hy2, jadd, hne1, hne2]
  have hb25 : bucketAdd exS9.labels exS9.demand "2025" = .num 0 := by
    unfold bucketAdd
    rw [hrange]
    norm_num [exS9, hy1, hy2, jadd, hne1, hne2]
  have hdem : (aggregateByYear exS9).demand = [.num (1 / 1000), .num 0] := by
    show ((yearKeys exS9.labels).map fun y => jsRound3 (bucketAdd exS9.labels exS9.demand y))
      = [.num (1 / 1000), .num 0]
    rw [hys]
    simp only [List.map_cons, List.map_nil, hb24, hb25]
    norm_num [jsRound3]
  refine ⟨by rw [show (aggregateByYear exS9).labels = yearKeys exS9.labels from rfl, hys],
    hdem, ?_⟩
  rw [hdem]
  norm_num [JNum.toRat, exS9]

/-- C9, amended: for an index-aligned quarterly series of finite
values, the year aggregation produces one bucket per distinct year
token (the bucket labels are exactly the distinct `yearOf` values,
without duplicates), each bucket's estimate/demand/supply sum is
rounded to 3 decimal places, and whenever every bucket sum is already
exact at 3 decimals (`jsRound3` fixes it — e.g. all values in integer
thousandths) the total over the year buckets equals the sum of all the
quarterly values.  (Without that exactness condition the rounding can
break conservation, as the counterexample shows.) -/
theorem c9_year_aggregation (s : ExtendedSeries)
    (hle : s.estimate.length = s.labels.length)
    (hld : s.demand.length = s.labels.length)
    (hls : s.supply.length = s.labels.length)
    (hfe : ∀ v ∈ s.estimate, v.isFinite = true)
    (hfd : ∀ v ∈ s.demand, v.isFinite = true)
    (hfs : ∀ v ∈ s.supply, v.isFinite = true)
    (hre : ∀ y ∈ yearKeys s.labels,
      jsRound3 (bucketAdd s.labels s.estimate y) = bucketAdd s.labels s.estimate y)
    (hrd : ∀ y ∈ yearKeys s.labels,
      jsRound3 (bucketAdd s.labels s.demand y) = bucketAdd s.labels s.demand y)
    (hrs : ∀ y ∈ yearKeys s.labels,
      jsRound3 (bucketAdd s.labels s.supply y) = bucketAdd s.labels s.supply y) :
    (aggregateByYear s).labels.Nodup ∧
    (∀ y, y ∈ (aggregateByYear s).labels ↔ y ∈ s.labels.map yearOf) ∧
    ((aggregateByYear s).estimate.map JNum.toRat).sum = (s.estimate.map JNum.toRat).sum ∧
    ((aggregateByYear s).demand.map JNum.toRat).sum = (s.demand.map JNum.toRat).sum ∧
    ((aggregateByYear s).supply.map JNum.toRat).sum = (s.supply.map JNum.toRat).sum := by
  have hone : ∀ (vals : List JNum), vals.length = s.labels.length →
      (∀ v ∈ vals, v.isFinite = true) →
      (∀ y ∈ yearKeys s.labels,
        jsRound3 (bucketAdd s.labels vals y) = bucketAdd s.labels vals y) →
      (((yearKeys s.labels).map fun y =>
        jsRound3 (bucketAdd s.labels vals y)).map JNum.toRat).sum =
        (vals.map JNum.toRat).sum := by
    intro vals hlen hfin hr
    have h1 : ((yearKeys s.labels).map fun y => jsRound3 (bucketAdd s.labels vals y)) =
        ((yearKeys s.labels).map fun y => bucketAdd s.labels vals y) :=
      List.map_congr_left hr
    rw [h1, List.map_map]
    have h2 : (JNum.toRat ∘ fun y => bucketAdd s.labels vals y) =
        fun y => (bucketAdd s.labels vals y).toRat := rfl
    rw [h2, bucket_total s.labels vals hfin, ← hlen, range_sum_vals]
  exact ⟨yearKeys_nodup s.labels, fun y => yearKeys_mem s.labels y,
    hone s.estimate hle hfe hre, hone s.demand hld hfd hrd, hone s.supply hls hfs hrs⟩

theorem exS9w_round_est : ∀ y ∈ yearKeys exS9w.labels,
    jsRound3 (bucketAdd exS9w.labels exS9w.estimate y) =
      bucketAdd exS9w.labels exS9w.estimate y := by
  have hys : yearKeys exS9w.labels = ["2024", "2025"] := by decide
  have hy1 : yearOf "Q3 2024" = "2024" := by decide
  have hy2 : yearOf "Q4 2024" = "2024" := by decide
  have hy3 : yearOf "Q1 2025" = "2025" := by decide
  have hrange : List.range exS9w.labels.length = [0, 1, 2] := by decide
  have hne1 : ("2024" : String) ≠ "2025" := by decide
  have hne2 : ("2025" : String) ≠ "2024" := by decide
  intro y hy
  rw [hys] at hy
  simp only [List.mem_cons, List.not_mem_nil, or_false] at hy
  rcases hy with h | h <;> subst h <;> unfold bucketAdd <;> rw [hrange] <;>
    norm_num [exS9w, hy1, hy2, hy3, jadd, hne1, hne2, jsRound3]

theorem exS9w_round_dem : ∀ y ∈ yearKeys exS9w.labels,
    jsRound3 (bucketAdd exS9w.labels exS9w.demand y) =
      bucketAdd exS9w.labels exS9w.demand y := by
  have hys : yearKeys exS9w.labels = ["2024", "2025"] := by decide
  have hy1 : yearOf "Q3 2024" = "2024" := by decide
  have hy2 : yearOf "Q4 2024" = "2024" := by decide
  have hy3 : yearOf "Q1 2025" = "2025" := by decide
  have hrange : List.range exS9w.labels.length = [0, 1, 2] := by decide
  have hne1 : ("2024" : String) ≠ "2025" := by decide
  have hne2 : ("2025" : String) ≠ "2024" := by decide
  intro y hy
  rw [hys] at hy
  simp only [List.mem_cons, List.not_mem_nil, or_false] at hy
  rcases hy with h | h <;> subst h <;> unfold bucketAdd <;> rw [hrange] <;>
    norm_num [exS9w, hy1, hy2, hy3, jadd, hne1, hne2, jsRound3]

theorem exS9w_round_sup : ∀ y ∈ yearKeys exS9w.labels,
    jsRound3 (bucketAdd exS9w.labels exS9w.supply y) =
      bucketAdd exS9w.labels exS9w.supply y := by
  have hys : yearKeys exS9w.labels = ["2024", "2025"] := by decide
  have hy1 : yearOf "Q3 2024" = "2024" := by decide
  have hy2 : yearOf "Q4 2024" = "2024" := by decide
  have hy3 : yearOf "Q1 2025" = "2025" := by decide
  have hrange : List.range exS9w.labels.length = [0, 1, 2] := by decide
  have hne1 : ("2024" : String) ≠ "2025" := by decide
  have hne2 : ("2025" : String) ≠ "2024" := by decide
  intro y hy
  rw [hys] at hy
  simp only [List.mem_cons, List.not_mem_nil, or_false] at hy
  rcases hy with h | h <;> subst h <;> unfold bucketAdd <;> rw [hrange] <;>
    norm_num [exS9w, hy1, hy2, hy3, jadd, hne1, hne2, jsRound3]

/-- Witness for C9: the three-quarter series over 2024/2025 with
integer values has all bucket sums exact at 3 decimals, so the
aggregation produces nodup year buckets covering exactly the label
years and conserves each of the three totals. -/
theorem c9_witness :
    (aggregateByYear exS9w).labels.Nodup ∧
    (∀ y, y ∈ (aggregateByYear exS9w).labels ↔ y ∈ exS9w.labels.map yearOf) ∧
    ((aggregateByYear exS9w).estimate.map JNum.toRat).sum =
      (exS9w.estimate.map JNum.toRat).sum ∧
    ((aggregateByYear exS9w).demand.map JNum.toRat).sum =
      (exS9w.demand.map JNum.toRat).sum ∧
    ((aggregateByYear exS9w).supply.map JNum.toRat).sum =
      (exS9w.supply.map JNum.toRat).sum :=
  c9_year_aggregation exS9w rfl rfl rfl
    (by decide) (by decide) (by decide)
    exS9w_round_est exS9w_round_dem exS9w_round_sup

end InsightHub
